import Mathlib

/-!
Verification development for a frame-synchronized subtitle scheduler and
compositor.  The program reads tab-separated subtitle cues from an input
stream and emits one raw RGBA frame per tick of a virtual clock.

Text is embedded as `List Char`.  The f32/f64 arithmetic of the source is
modelled exactly over `ℚ` with an explicit binary64 round-to-nearest-even
model for the virtual-clock computation (`now64`), where rounding is
observable.  The rasterization backend (Skia) is an external collaborator;
it is modelled as a capability: the surface state records which content the
canvas currently shows, and a `Backend.render` function turns surface
content into the bytes a pixel readback would yield.
-/

namespace Subcast

/-- One subtitle cue: `start`/`end` in integer milliseconds (half-open
window) and the text lines. Mirrors `struct Subtitle` in `main.rs`. -/
structure Subtitle where
  start : Nat
  end_ : Nat
  lines : List (List Char)
deriving DecidableEq, Repr

/-- Split a character list at every occurrence of the character `c`,
keeping empty pieces — the semantics of Rust's `str::split(char)`. -/
def splitChar (c : Char) : List Char → List (List Char)
  | [] => [[]]
  | x :: xs =>
    if x = c then [] :: splitChar c xs
    else
      match splitChar c xs with
      | [] => [[x]]
      | r :: rs => (x :: r) :: rs

/-- Split a character list at every non-overlapping, leftmost occurrence of
the three-character separator `"   "` — the semantics of Rust's
`str::split("   ")` as used on the cue text body. -/
def splitTripleSpace : List Char → List (List Char)
  | ' ' :: ' ' :: ' ' :: rest => [] :: splitTripleSpace rest
  | x :: rest =>
    match splitTripleSpace rest with
    | [] => [[x]]
    | r :: rs => (x :: r) :: rs
  | [] => [[]]

/-- Rust `u64::from_str`: an optional leading `'+'`, then one or more ASCII
digits, value below `2^64`; anything else is a parse error. -/
def parseU64 (s : List Char) : Option Nat :=
  let s' := match s with
    | '+' :: rest => rest
    | other => other
  if s' = [] then none
  else if s'.all (fun ch => '0' ≤ ch ∧ ch ≤ '9') then
    let v := s'.foldl (fun a ch => a * 10 + (ch.toNat - 48)) 0
    if v < 2 ^ 64 then some v else none
  else none

/-- `parse_line` from `main.rs`: split the line on tabs; fewer than three
fields, or a timestamp that fails `u64` parsing, is malformed (`none`);
otherwise the third field is split on triple spaces into the cue lines. -/
def parse_line (line : List Char) : Option Subtitle :=
  let parts := splitChar '\t' line
  if parts.length < 3 then none
  else do
    let start ← parseU64 parts[0]!
    let e ← parseU64 parts[1]!
    let text := parts[2]!
    some { start := start, end_ := e, lines := splitTripleSpace text }

/-! ## The binary64 virtual clock

`main.rs` computes `frame_dur_ms = 1000.0 / fps as f64` and
`now_ms = (frame_count as f64 * frame_dur_ms) as u64`.  Both operations are
IEEE-754 binary64 with round-to-nearest-even; the cast truncates toward
zero and saturates at `u64::MAX`.  All values arising here are nonnegative
rationals in the normal range, so binary64 rounding is exactly "round to 53
significant bits, ties to even".  To keep everything kernel-evaluable, a
nonnegative rational `a / b` is represented as the pair `(a, b)` of
naturals, and the float operations are computed on such pairs. -/

/-- Fuel-driven base-2 logarithm on `ℕ` (greatest `k` with `2^k ≤ n`, and
`0` for `n ≤ 1`); structurally recursive so the kernel can evaluate it. -/
def lg2 : Nat → Nat → Nat
  | 0, _ => 0
  | fuel + 1, n => if 2 ≤ n then lg2 fuel (n / 2) + 1 else 0

/-- Greatest `k` with `2^k ≤ n` (for `1 ≤ n`). -/
def nlog2 (n : Nat) : Nat := lg2 n n

/-- Binade search for fractions `a / b` in `(0, 1)`: the least `k ≥ 1`
with `b ≤ a * 2^k`, found by doubling with explicit fuel. -/
def expoUp : Nat → Nat → Nat → Nat
  | 0, _, _ => 1
  | fuel + 1, a, b => if b ≤ a * 2 then 1 else expoUp fuel (a * 2) b + 1

/-- The binade exponent of the positive fraction `a / b`: the `e : ℤ` with
`2^e ≤ a/b < 2^(e+1)` (for `1 ≤ a`, `1 ≤ b`). -/
def expoND (a b : Nat) : Int :=
  if b ≤ a then (nlog2 (a / b) : Int) else -(expoUp b a b : Int)

/-- Round the fraction `a / b` (with `0 < b`) to the nearest natural
number, ties to even. -/
def rheND (a b : Nat) : Nat :=
  let q := a / b
  let r := a % b
  if 2 * r < b then q
  else if b < 2 * r then q + 1
  else if q % 2 = 0 then q else q + 1

/-- Round the nonnegative fraction `a / b` to the nearest binary64 value
(round to 53 significant bits, ties to even), returned again as a
numerator/denominator pair; the mantissa window is `[2^52, 2^53)`. -/
def RNnd (a b : Nat) : Nat × Nat :=
  if a = 0 ∨ b = 0 then (0, 1)
  else
    let e : Int := expoND a b - 52
    if 0 ≤ e then (rheND a (b * 2 ^ e.toNat) * 2 ^ e.toNat, 1)
    else (rheND (a * 2 ^ (-e).toNat) b, 2 ^ (-e).toNat)

/-- The virtual clock of `main.rs` at tick `f` with frame rate `fps`:
`(frame_count as f64 * (1000.0 / fps as f64)) as u64` — the conversion
`frame_count as f64` rounds `f` to 53 bits, the division and the
multiplication each round once, and the cast truncates toward zero,
saturating at `u64::MAX`. -/
def now64 (fps f : Nat) : Nat :=
  let d := RNnd 1000 fps
  let fc := RNnd f 1
  let n := RNnd (fc.1 * d.1) (fc.2 * d.2)
  min (n.1 / n.2) (2 ^ 64 - 1)

/-! ## Configuration and the rasterization capability -/

/-- `struct Config` of `main.rs`.  The `f32` fields are modelled over `ℚ`. -/
structure Config where
  fps : Nat
  width : Nat
  height : Nat
  baseline : Int
  font_path : List Char
  font_size : ℚ
  line_height_multiplier : ℚ
  shadow_angle : ℚ
  shadow_distance : ℚ
  shadow_blur : ℚ
  shadow_opacity : ℚ

/-- Font capability: `Font::spacing` and `Font::measure_text` of the
external text backend. -/
structure FontOps where
  spacing : ℚ
  measure : List Char → ℚ

/-- Transcendental float routines used by `draw_subtitle`
(`f32::to_radians`, `f32::cos`, `f32::sin`), provided by the platform. -/
structure TrigOps where
  toRadians : ℚ → ℚ
  cosine : ℚ → ℚ
  sine : ℚ → ℚ

/-- The paint of a text draw call: the black shadow paint (with its alpha
byte and optional blur sigma) or the solid white foreground paint. -/
inductive TextPaint where
  | shadow (alpha : Nat) (blurSigma : Option ℚ)
  | whiteFg
deriving DecidableEq, Repr

/-- One canvas operation issued by the compositor: a clear to transparent,
or an anti-aliased text draw at a pixel coordinate. -/
inductive CanvasOp where
  | clearOp
  | drawStr (text : List Char) (x y : ℚ) (paint : TextPaint)
deriving DecidableEq, Repr

/-- `draw_subtitle` of `main.rs`, as the sequence of canvas operations it
issues: a clear, then per line (in order) an optional shadow draw followed
by the white foreground draw. -/
def draw_subtitle (cfg : Config) (F : FontOps) (T : TrigOps) (sub : Subtitle) :
    List CanvasOp :=
  let line_height := F.spacing * cfg.line_height_multiplier
  let shadowAlpha := min (⌊cfg.shadow_opacity * 255⌋.toNat) 255
  let shadowPaint : TextPaint :=
    TextPaint.shadow shadowAlpha
      (if 0 < cfg.shadow_blur then some (cfg.shadow_blur / 2) else none)
  let rad := T.toRadians cfg.shadow_angle
  let off_x := cfg.shadow_distance * T.cosine rad
  let off_y := cfg.shadow_distance * T.sine rad
  sub.lines.enum.foldl
    (fun ops p =>
      let line_index_from_bottom : ℚ := ((sub.lines.length - 1 - p.1 : Nat) : ℚ)
      let y := (cfg.baseline : ℚ) - line_index_from_bottom * line_height
      let w := F.measure p.2
      let x := ((cfg.width : ℚ) - w) / 2
      ops
        ++ (if 0 < cfg.shadow_opacity then
              [CanvasOp.drawStr p.2 (x + off_x) (y + off_y) shadowPaint]
            else [])
        ++ [CanvasOp.drawStr p.2 x y TextPaint.whiteFg])
    [CanvasOp.clearOp]

/-! ## The tick loop -/

/-- Content of the raster surface: fully transparent (the most recent
operation was a clear; also the initial state of a fresh surface), or
showing the rendered lines of the cue with the given `(start, end)` key. -/
inductive SurfState where
  | cleared
  | drawn (key : Nat × Nat) (lines : List (List Char))
deriving DecidableEq, Repr

/-- Pixel-readback capability: `Surface::read_pixels` fills the caller's
buffer with bytes that are a function of the current surface content. -/
structure Backend where
  render : SurfState → List Nat

/-- Why the tick loop exited. -/
inductive ExitReason where
  | eof
  | readErr
  | writeErr
deriving DecidableEq, Repr

/-- The mutable state of `main`'s tick loop.  `drawLog` records each
invocation of `draw_subtitle` (its cache key and the tick it happened on)
and `preClears` counts executions of the "waiting for start time" clear
branch; both are observation instrumentation and influence nothing. -/
structure MachineState where
  frame_count : Nat
  active_sub : Option Subtitle
  queued_sub : Option Subtitle
  last_rendered_key : Option (Nat × Nat)
  is_cleared : Bool
  surface : SurfState
  pixel_buffer : List Nat
  input : List (Except Unit (List Char))
  output : List (List Nat)
  drawLog : List ((Nat × Nat) × Nat)
  skipped : List (List Char)
  preClears : Nat

/-- Expiry: `if let Some(sub) = &active_sub { if now_ms >= sub.end {
active_sub = None } }`. -/
def expirePhase (now : Nat) (s : MachineState) : MachineState :=
  match s.active_sub with
  | some sub => if sub.end_ ≤ now then { s with active_sub := none } else s
  | none => s

/-- Promotion: take the queued cue; drop it if wholly past, promote it if
its window is open, otherwise put it back. -/
def promotePhase (now : Nat) (s : MachineState) : MachineState :=
  if s.active_sub = none then
    match s.queued_sub with
    | some sub =>
      let s' := { s with queued_sub := none }
      if now < sub.end_ then
        if sub.start ≤ now then { s' with active_sub := some sub }
        else { s' with queued_sub := some sub }
      else s'
    | none => s
  else s

/-- Refill / late promotion: with both slots empty, read one input line
(end of input or a read error breaks the loop; a malformed line is logged
and skipped; a parsed cue is queued and immediately promoted if its window
is already open).  Otherwise promote the queued cue if it became eligible. -/
def ingestPhase (now : Nat) (s : MachineState) :
    MachineState ⊕ (MachineState × ExitReason) :=
  if s.active_sub = none ∧ s.queued_sub = none then
    match s.input with
    | [] => Sum.inr (s, ExitReason.eof)
    | lineRes :: rest =>
      match lineRes with
      | Except.error _ => Sum.inr ({ s with input := rest }, ExitReason.readErr)
      | Except.ok line =>
        let s' := { s with input := rest }
        match parse_line line with
        | some sub =>
          if sub.start ≤ now ∧ now < sub.end_ then
            Sum.inl { s' with active_sub := some sub, queued_sub := none }
          else Sum.inl { s' with queued_sub := some sub }
        | none => Sum.inl { s' with skipped := s'.skipped ++ [line] }
  else
    match s.queued_sub with
    | some sub =>
      if s.active_sub = none ∧ sub.start ≤ now ∧ now < sub.end_ then
        Sum.inl { s with active_sub := some sub, queued_sub := none }
      else Sum.inl s
    | none => Sum.inl s

/-- Rendering: redraw on a cache-key miss; otherwise (defensively) clear
before the cue's start; with no active cue, clear once.  Returns the new
state and the `needs_read` flag. -/
def renderPhase (now : Nat) (s : MachineState) : MachineState × Bool :=
  match s.active_sub with
  | some sub =>
    let key := (sub.start, sub.end_)
    if s.last_rendered_key ≠ some key then
      ({ s with surface := SurfState.drawn key sub.lines,
                drawLog := s.drawLog ++ [(key, s.frame_count)],
                last_rendered_key := some key,
                is_cleared := false }, true)
    else if now < sub.start ∧ s.is_cleared = false then
      ({ s with surface := SurfState.cleared, is_cleared := true,
                preClears := s.preClears + 1 }, true)
    else (s, false)
  | none =>
    if s.is_cleared = false then
      ({ s with surface := SurfState.cleared, last_rendered_key := none,
                is_cleared := true }, true)
    else (s, false)

/-- Result of one loop iteration: continue with a new state, or exit. -/
inductive StepRes where
  | next (s : MachineState)
  | halted (s : MachineState) (r : ExitReason)

/-- One iteration of the tick loop: compute the virtual time, run the
scheduler phases, render, read pixels back if needed, write the buffer to
the sink (`wfail` says whether the write at a given tick fails), and
advance the frame counter. -/
def step (fps : Nat) (B : Backend) (wfail : Nat → Bool) (s : MachineState) :
    StepRes :=
  let now := now64 fps s.frame_count
  let s2 := promotePhase now (expirePhase now s)
  match ingestPhase now s2 with
  | Sum.inr (sh, r) => StepRes.halted sh r
  | Sum.inl s3 =>
    let pr := renderPhase now s3
    let s5 := if pr.2 then
        { pr.1 with pixel_buffer := B.render pr.1.surface }
      else pr.1
    if wfail s5.frame_count then StepRes.halted s5 ExitReason.writeErr
    else StepRes.next
      { s5 with output := s5.output ++ [s5.pixel_buffer],
                frame_count := s5.frame_count + 1 }

/-- The loop state before the first iteration. -/
def initState (cfg : Config) (input : List (Except Unit (List Char))) :
    MachineState where
  frame_count := 0
  active_sub := none
  queued_sub := none
  last_rendered_key := none
  is_cleared := false
  surface := SurfState.cleared
  pixel_buffer := List.replicate (cfg.height * (cfg.width * 4)) 0
  input := input
  output := []
  drawLog := []
  skipped := []
  preClears := 0

/-- Run at most `n` iterations (a halt is absorbing). -/
def runN (fps : Nat) (B : Backend) (wfail : Nat → Bool) :
    Nat → MachineState → StepRes
  | 0, s => StepRes.next s
  | n + 1, s =>
    match step fps B wfail s with
    | StepRes.next s' => runN fps B wfail n s'
    | h => h

/-- The loop states reachable at the top of an iteration. -/
inductive Reach (cfg : Config) (B : Backend) (wfail : Nat → Bool)
    (input : List (Except Unit (List Char))) : MachineState → Prop where
  | init : Reach cfg B wfail input (initState cfg input)
  | next {s s'} : Reach cfg B wfail input s →
      step cfg.fps B wfail s = StepRes.next s' → Reach cfg B wfail input s'

/-- The rational value of a numerator/denominator pair. -/
def qval (p : Nat × Nat) : ℚ := (p.1 : ℚ) / (p.2 : ℚ)

/-- The tail of a tick after the scheduler phases produced the state `s3`:
render, optional pixel readback, write, frame-counter increment.  (The
scheduler phases do not change `frame_count`, so the virtual time of the
tick is `now64 fps s3.frame_count`.) -/
def emitStep (fps : Nat) (B : Backend) (wfail : Nat → Bool)
    (s3 : MachineState) : StepRes :=
  let pr := renderPhase (now64 fps s3.frame_count) s3
  let s5 := if pr.2 then
      { pr.1 with pixel_buffer := B.render pr.1.surface }
    else pr.1
  if wfail s5.frame_count then StepRes.halted s5 ExitReason.writeErr
  else StepRes.next
    { s5 with
        output := s5.output ++ [s5.pixel_buffer],
        frame_count := s5.frame_count + 1 }

/-- Scheduler-side invariant of the reachable loop states: the slots are
never both occupied, every active cue was seen eligible at some earlier
tick, every recorded draw happened strictly inside the drawn cue's window,
a drawn key is either the live cached one or already wholly past, keys are
drawn at most once, and the defensive pre-start clear never fires. -/
structure SchedInv (fps : Nat) (s : MachineState) : Prop where
  slots : ¬(s.active_sub.isSome ∧ s.queued_sub.isSome)
  activeWindow : ∀ c, s.active_sub = some c →
    ∃ t, t < s.frame_count ∧ c.start ≤ now64 fps t ∧ now64 fps t < c.end_
  logWindow : ∀ e ∈ s.drawLog, e.2 < s.frame_count ∧
    e.1.1 ≤ now64 fps e.2 ∧ now64 fps e.2 < e.1.2
  logFresh : ∀ K ∈ s.drawLog.map Prod.fst,
    (s.last_rendered_key = some K ∧
      ∃ c, s.active_sub = some c ∧ (c.start, c.end_) = K) ∨
    ∃ t, t < s.frame_count ∧ K.2 ≤ now64 fps t
  logNodup : (s.drawLog.map Prod.fst).Nodup
  noPre : s.preClears = 0

/-- Emission-side invariant of the reachable loop states: one frame per
executed tick, the most recent frame is the current buffer, and the buffer
and every emitted frame hold exactly `wh` bytes. -/
structure EmitInv (wh : Nat) (s : MachineState) : Prop where
  outCount : s.output.length = s.frame_count
  outLast : s.output ≠ [] → s.output.getLast? = some s.pixel_buffer
  bufLen : s.pixel_buffer.length = wh
  outLen : ∀ fr ∈ s.output, fr.length = wh

/-! ## Concrete fixtures used to exercise the model -/

/-- The default configuration of `main.rs` (fps 25, 1920x1080,
baseline 1026, no shadow offset or blur, opaque shadow). -/
def cfg0 : Config where
  fps := 25
  width := 1920
  height := 1080
  baseline := 1026
  font_path := []
  font_size := 60
  line_height_multiplier := 1
  shadow_angle := 45
  shadow_distance := 0
  shadow_blur := 0
  shadow_opacity := 1

/-- A fake rasterization backend that produces a correctly sized buffer
whose first byte tags the surface content. -/
def B0 : Backend where
  render st :=
    List.replicate (cfg0.height * (cfg0.width * 4))
      (match st with
        | SurfState.cleared => 0
        | SurfState.drawn _ _ => 1)

/-- A single-cue input: `1000<TAB>3000<TAB>HELLO`. -/
def inp0 : List (Except Unit (List Char)) :=
  [Except.ok ("1000\t3000\tHELLO".toList)]

/-- A tiny configuration driving one tick per virtual second. -/
def cfg1 : Config where
  fps := 1
  width := 2
  height := 1
  baseline := 1
  font_path := []
  font_size := 60
  line_height_multiplier := 1
  shadow_angle := 45
  shadow_distance := 0
  shadow_blur := 0
  shadow_opacity := 1

/-- A fake backend whose readback records which cue the surface shows. -/
def B1 : Backend where
  render st :=
    match st with
    | SurfState.cleared => [0]
    | SurfState.drawn k _ => [1, k.1, k.2]

/-- Two overlapping cues: `[0, 2000)` showing `A` and `[1000, 3000)`
showing `B`. -/
def inpOverlap : List (Except Unit (List Char)) :=
  [Except.ok ("0\t2000\tA".toList), Except.ok ("1000\t3000\tB".toList)]

/-- A configuration with a fully transparent shadow (opacity `0`) but a
nonzero shadow distance and blur radius. -/
def cfgNoShadow : Config where
  fps := 1
  width := 100
  height := 10
  baseline := 90
  font_path := []
  font_size := 10
  line_height_multiplier := 1
  shadow_angle := 45
  shadow_distance := 5
  shadow_blur := 3
  shadow_opacity := 0

/-- A concrete font capability for evaluating the draw pipeline. -/
def fontW : FontOps where
  spacing := 12
  measure l := (l.length : ℚ)

/-- Concrete trigonometric routines for evaluating the draw pipeline. -/
def trigW : TrigOps where
  toRadians q := q / 57
  cosine _ := 1
  sine _ := 0

/-- The per-frame display property: frame `k` (emitted at tick `k`) shows
the rendered lines of any ingested cue whose window contains the tick's
virtual time, and is the transparent readback when no cue's window does. -/
def OutProp (fps : Nat) (B : Backend) (cues : List Subtitle)
    (out : List (List Nat)) : Prop :=
  ∀ k (hk : k < out.length),
    (∀ c ∈ cues, c.start ≤ now64 fps k ∧ now64 fps k < c.end_ →
      out[k] = B.render (SurfState.drawn (c.start, c.end_) c.lines)) ∧
    ((∀ c ∈ cues, ¬(c.start ≤ now64 fps k ∧ now64 fps k < c.end_)) →
      out[k] = B.render SurfState.cleared)

/-- Correspondence invariant between a loop state and the cue list, for a
sorted, gap-inhabited schedule: all frames emitted so far are correct, one
frame was emitted per tick, and the machine is in one of three shapes —
before the first tick; cue `i` active since a tick that saw its window
open; or cue `i` queued, read but not yet started, all earlier cues wholly
past. -/
def CInv (fps : Nat) (B : Backend) (cues : List Subtitle)
    (lines : List (List Char)) (s : MachineState) : Prop :=
  OutProp fps B cues s.output ∧
  s.output.length = s.frame_count ∧
  ((s.frame_count = 0 ∧ s.active_sub = none ∧ s.queued_sub = none ∧
      s.is_cleared = false ∧ s.last_rendered_key = none ∧
      s.input = lines.map Except.ok) ∨
   (∃ i c t, cues[i]? = some c ∧ s.frame_count = t + 1 ∧
      s.input = (lines.drop (i + 1)).map Except.ok ∧
      s.active_sub = some c ∧ s.queued_sub = none ∧
      c.start ≤ now64 fps t ∧ now64 fps t < c.end_ ∧
      s.last_rendered_key = some (c.start, c.end_) ∧ s.is_cleared = false ∧
      s.surface = SurfState.drawn (c.start, c.end_) c.lines ∧
      s.pixel_buffer = B.render (SurfState.drawn (c.start, c.end_) c.lines)) ∨
   (∃ i c t, cues[i]? = some c ∧ s.frame_count = t + 1 ∧
      s.input = (lines.drop (i + 1)).map Except.ok ∧
      s.active_sub = none ∧ s.queued_sub = some c ∧
      now64 fps t < c.start ∧
      (∀ i' c', i' < i → cues[i']? = some c' → c'.end_ ≤ now64 fps t) ∧
      s.last_rendered_key = none ∧ s.is_cleared = true ∧
      s.surface = SurfState.cleared ∧
      s.pixel_buffer = B.render SurfState.cleared))

/-- The output stream of a run result. -/
def resOutput (r : StepRes) : List (List Nat) :=
  match r with
  | StepRes.next s => s.output
  | StepRes.halted s _ => s.output

/-- The draw log of a run result. -/
def resDrawLog (r : StepRes) : List ((Nat × Nat) × Nat) :=
  match r with
  | StepRes.next s => s.drawLog
  | StepRes.halted s _ => s.drawLog

/-- The loop state after one tick of the single-cue run on `cfg1`/`inp0`:
the cue is read and queued, the surface cleared, one transparent frame
emitted. -/
def stW1 : MachineState where
  frame_count := 1
  active_sub := none
  queued_sub := some (Subtitle.mk 1000 3000 ["HELLO".toList])
  last_rendered_key := none
  is_cleared := true
  surface := SurfState.cleared
  pixel_buffer := [0]
  input := []
  output := [[0]]
  drawLog := []
  skipped := []
  preClears := 0

/-- The loop state after two ticks of the single-cue run on `cfg1`/`inp0`:
the cue's window opened at virtual time `1000`, it was promoted and drawn,
and its frame emitted. -/
def stW2 : MachineState where
  frame_count := 2
  active_sub := some (Subtitle.mk 1000 3000 ["HELLO".toList])
  queued_sub := none
  last_rendered_key := some (1000, 3000)
  is_cleared := false
  surface := SurfState.drawn (1000, 3000) ["HELLO".toList]
  pixel_buffer := [1, 1000, 3000]
  input := []
  output := [[0], [1, 1000, 3000]]
  drawLog := [((1000, 3000), 1)]
  skipped := []
  preClears := 0

/-! ## Properties of the binary64 clock model -/

theorem lg2_spec : ∀ fuel n : Nat, 1 ≤ n → n ≤ fuel →
    2 ^ lg2 fuel n ≤ n ∧ n < 2 ^ (lg2 fuel n + 1) := by
  intro fuel
  induction fuel with
  | zero => intro n h1 h2; omega
  | succ fuel ih =>
    intro n h1 h2
    rw [lg2]
    by_cases h : 2 ≤ n
    · simp only [if_pos h]
      have hd1 : 1 ≤ n / 2 := (Nat.one_le_div_iff (by norm_num)).2 h
      have hd2 : n / 2 ≤ fuel := by omega
      obtain ⟨hl, hr⟩ := ih (n / 2) hd1 hd2
      constructor
      · calc 2 ^ (lg2 fuel (n / 2) + 1) = 2 ^ lg2 fuel (n / 2) * 2 := by ring
        _ ≤ n / 2 * 2 := by omega
        _ ≤ n := Nat.div_mul_le_self n 2
      · have : n < (n / 2 + 1) * 2 := by omega
        calc n < (n / 2 + 1) * 2 := this
        _ ≤ 2 ^ (lg2 fuel (n / 2) + 1) * 2 := by
            have : n / 2 + 1 ≤ 2 ^ (lg2 fuel (n / 2) + 1) := hr
            exact Nat.mul_le_mul_right 2 this
        _ = 2 ^ (lg2 fuel (n / 2) + 1 + 1) := by ring
    · simp only [if_neg h]
      omega

theorem nlog2_spec {n : Nat} (h : 1 ≤ n) :
    2 ^ nlog2 n ≤ n ∧ n < 2 ^ (nlog2 n + 1) :=
  lg2_spec n n h le_rfl

theorem expoUp_spec : ∀ fuel a b : Nat, 0 < a → a < b → b ≤ a * 2 ^ fuel →
    b ≤ a * 2 ^ expoUp fuel a b ∧ a * 2 ^ expoUp fuel a b < 2 * b := by
  intro fuel
  induction fuel with
  | zero => intro a b ha hab hfuel; simp at hfuel; omega
  | succ fuel ih =>
    intro a b ha hab hfuel
    rw [expoUp]
    by_cases h : b ≤ a * 2
    · simp only [if_pos h]; constructor <;> [simpa using h; nlinarith]
    · simp only [if_neg h]
      have h1 : 0 < a * 2 := by omega
      have h2 : a * 2 < b := by omega
      have h3 : b ≤ a * 2 * 2 ^ fuel := by
        calc b ≤ a * 2 ^ (fuel + 1) := hfuel
        _ = a * 2 * 2 ^ fuel := by ring
      obtain ⟨hl, hr⟩ := ih (a * 2) b h1 h2 h3
      constructor
      · calc b ≤ a * 2 * 2 ^ expoUp fuel (a * 2) b := hl
        _ = a * 2 ^ (expoUp fuel (a * 2) b + 1) := by ring
      · calc a * 2 ^ (expoUp fuel (a * 2) b + 1)
            = a * 2 * 2 ^ expoUp fuel (a * 2) b := by ring
        _ < 2 * b := hr

theorem expoND_le {a b : Nat} (ha : 0 < a) (hb : 0 < b) :
    (2 : ℚ) ^ expoND a b ≤ (a : ℚ) / b := by
  have hbq : (0 : ℚ) < (b : ℚ) := by exact_mod_cast hb
  rw [expoND]
  by_cases h : b ≤ a
  · simp only [if_pos h]
    have h1 : 1 ≤ a / b := (Nat.one_le_div_iff hb).2 h
    obtain ⟨hl, _⟩ := nlog2_spec h1
    rw [zpow_natCast]
    calc ((2 : ℚ) ^ nlog2 (a / b)) = ((2 ^ nlog2 (a / b) : Nat) : ℚ) := by push_cast; ring
    _ ≤ ((a / b : Nat) : ℚ) := by exact_mod_cast hl
    _ ≤ (a : ℚ) / b := Nat.cast_div_le
  · simp only [if_neg h]
    have hab : a < b := by omega
    have hfuel : b ≤ a * 2 ^ b := by
      calc b ≤ 2 ^ b := (Nat.lt_two_pow b).le
      _ ≤ a * 2 ^ b := Nat.le_mul_of_pos_left _ ha
    obtain ⟨hl, _⟩ := expoUp_spec b a b ha hab hfuel
    rw [zpow_neg, zpow_natCast]
    rw [inv_le_iff_one_le_mul₀ (by positivity)]
    have hq : (b : ℚ) ≤ (a : ℚ) * 2 ^ expoUp b a b := by
      calc (b : ℚ) = ((b : Nat) : ℚ) := rfl
      _ ≤ ((a * 2 ^ expoUp b a b : Nat) : ℚ) := by exact_mod_cast hl
      _ = (a : ℚ) * 2 ^ expoUp b a b := by push_cast; ring
    rw [div_mul_eq_mul_div, le_div_iff₀ hbq]
    linarith

theorem lt_expoND {a b : Nat} (ha : 0 < a) (hb : 0 < b) :
    (a : ℚ) / b < (2 : ℚ) ^ (expoND a b + 1) := by
  have hbq : (0 : ℚ) < (b : ℚ) := by exact_mod_cast hb
  rw [expoND]
  by_cases h : b ≤ a
  · simp only [if_pos h]
    have h1 : 1 ≤ a / b := (Nat.one_le_div_iff hb).2 h
    obtain ⟨_, hr⟩ := nlog2_spec h1
    have hcast : ((nlog2 (a / b) : Int) + 1) = ((nlog2 (a / b) + 1 : Nat) : Int) := by
      push_cast; ring
    rw [hcast, zpow_natCast]
    have hq : (a : ℚ) / b < (a / b : Nat) + 1 := by
      rw [div_lt_iff₀ hbq]
      have : a < b * (a / b) + b := by
        have := Nat.div_add_mod a b
        have := Nat.mod_lt a hb
        omega
      calc (a : ℚ) = ((a : Nat) : ℚ) := rfl
      _ < ((b * (a / b) + b : Nat) : ℚ) := by exact_mod_cast this
      _ = (((a / b : Nat) : ℚ) + 1) * b := by push_cast; ring
    calc (a : ℚ) / b < (a / b : Nat) + 1 := hq
    _ ≤ (2 : ℚ) ^ (nlog2 (a / b) + 1) := by
        have : (a / b) + 1 ≤ 2 ^ (nlog2 (a / b) + 1) := hr
        calc ((a / b : Nat) : ℚ) + 1 = ((a / b + 1 : Nat) : ℚ) := by push_cast; ring
        _ ≤ ((2 ^ (nlog2 (a / b) + 1) : Nat) : ℚ) := by exact_mod_cast this
        _ = (2 : ℚ) ^ (nlog2 (a / b) + 1) := by push_cast; ring
  · simp only [if_neg h]
    have hab : a < b := by omega
    have hfuel : b ≤ a * 2 ^ b := by
      calc b ≤ 2 ^ b := (Nat.lt_two_pow b).le
      _ ≤ a * 2 ^ b := Nat.le_mul_of_pos_left _ ha
    obtain ⟨_, hr⟩ := expoUp_spec b a b ha hab hfuel
    have hrq : (a : ℚ) * 2 ^ expoUp b a b < 2 * b := by
      calc (a : ℚ) * 2 ^ expoUp b a b = ((a * 2 ^ expoUp b a b : Nat) : ℚ) := by
            push_cast; ring
      _ < ((2 * b : Nat) : ℚ) := by exact_mod_cast hr
      _ = 2 * (b : ℚ) := by push_cast; ring
    have hpow : (0 : ℚ) < 2 ^ expoUp b a b := by positivity
    rw [div_lt_iff₀ hbq]
    have hz : (2 : ℚ) ^ (-(expoUp b a b : Int) + 1) = 2 / 2 ^ expoUp b a b := by
      rw [zpow_add₀ (by norm_num : (2:ℚ) ≠ 0), zpow_neg, zpow_natCast, zpow_one]
      ring
    rw [hz, div_mul_eq_mul_div, lt_div_iff₀ hpow]
    nlinarith

theorem binade_eq {q : ℚ} {e e' : Int} (h1 : (2 : ℚ) ^ e ≤ q) (h2 : q < 2 ^ (e + 1))
    (h3 : (2 : ℚ) ^ e' ≤ q) (h4 : q < 2 ^ (e' + 1)) : e = e' := by
  have a1 : (2 : ℚ) ^ e < 2 ^ (e' + 1) := lt_of_le_of_lt h1 h4
  have a2 : (2 : ℚ) ^ e' < 2 ^ (e + 1) := lt_of_le_of_lt h3 h2
  have b1 : e < e' + 1 := (zpow_lt_zpow_iff_right₀ (by norm_num : (1:ℚ) < 2)).1 a1
  have b2 : e' < e + 1 := (zpow_lt_zpow_iff_right₀ (by norm_num : (1:ℚ) < 2)).1 a2
  omega

theorem div_le_rheND (a b : Nat) : a / b ≤ rheND a b := by
  simp only [rheND]; split_ifs <;> omega

theorem rheND_le_div_succ (a b : Nat) : rheND a b ≤ a / b + 1 := by
  simp only [rheND]; split_ifs <;> omega

theorem frac_lt_half_iff {x y : Nat} (hy : 0 < y) :
    ((x : Nat) : ℚ) / y < 1 / 2 ↔ 2 * x < y := by
  have hyq : (0 : ℚ) < (y : ℚ) := by exact_mod_cast hy
  rw [div_lt_div_iff₀ hyq (by norm_num : (0 : ℚ) < 2)]
  constructor
  · intro hc
    have hn : x * 2 < 1 * y := by exact_mod_cast hc
    omega
  · intro hc
    have hn : x * 2 < 1 * y := by omega
    exact_mod_cast hn

theorem half_lt_frac_iff {x y : Nat} (hy : 0 < y) :
    (1 : ℚ) / 2 < ((x : Nat) : ℚ) / y ↔ y < 2 * x := by
  have hyq : (0 : ℚ) < (y : ℚ) := by exact_mod_cast hy
  rw [div_lt_div_iff₀ (by norm_num : (0 : ℚ) < 2) hyq]
  constructor
  · intro hc
    have hn : 1 * y < x * 2 := by exact_mod_cast hc
    omega
  · intro hc
    have hn : 1 * y < x * 2 := by omega
    exact_mod_cast hn

theorem cast_div_eq {a b : Nat} (hb : 0 < b) :
    (a : ℚ) / b = ((a / b : Nat) : ℚ) + ((a % b : Nat) : ℚ) / b := by
  have hbq : ((b : ℚ)) ≠ 0 := by exact_mod_cast hb.ne'
  have h := Nat.div_add_mod a b
  field_simp
  calc (a : ℚ) = ((b * (a / b) + a % b : Nat) : ℚ) := by exact_mod_cast h.symm
  _ = ((a / b : Nat) : ℚ) * b + ((a % b : Nat) : ℚ) := by push_cast; ring

theorem rheND_le {a b : Nat} (hb : 0 < b) :
    (rheND a b : ℚ) ≤ (a : ℚ) / b + 1 / 2 := by
  have hbq : (0 : ℚ) < (b : ℚ) := by exact_mod_cast hb
  have key := cast_div_eq (a := a) hb
  have hmodnn : (0 : ℚ) ≤ ((a % b : Nat) : ℚ) / b := by positivity
  simp only [rheND]
  split_ifs with h1 h2 h3
  · push_cast; linarith
  · have h' : (1 : ℚ) / 2 < ((a % b : Nat) : ℚ) / b := (half_lt_frac_iff hb).2 h2
    push_cast; linarith
  · have h' : ((a % b : Nat) : ℚ) / b = 1 / 2 := by
      rw [div_eq_div_iff hbq.ne' (by norm_num : (2 : ℚ) ≠ 0)]
      exact_mod_cast (by omega : (a % b) * 2 = 1 * b)
    push_cast; linarith
  · have h' : ((a % b : Nat) : ℚ) / b = 1 / 2 := by
      rw [div_eq_div_iff hbq.ne' (by norm_num : (2 : ℚ) ≠ 0)]
      exact_mod_cast (by omega : (a % b) * 2 = 1 * b)
    push_cast; linarith

theorem le_rheND {a b : Nat} (hb : 0 < b) :
    (a : ℚ) / b - 1 / 2 ≤ (rheND a b : ℚ) := by
  have hbq : (0 : ℚ) < (b : ℚ) := by exact_mod_cast hb
  have key := cast_div_eq (a := a) hb
  have hmod : ((a % b : Nat) : ℚ) / b < 1 := by
    rw [div_lt_one hbq]; exact_mod_cast Nat.mod_lt a hb
  simp only [rheND]
  split_ifs with h1 h2 h3
  · have h' : ((a % b : Nat) : ℚ) / b < 1 / 2 := (frac_lt_half_iff hb).2 h1
    push_cast; linarith
  · push_cast; linarith
  · have h' : ((a % b : Nat) : ℚ) / b = 1 / 2 := by
      rw [div_eq_div_iff hbq.ne' (by norm_num : (2 : ℚ) ≠ 0)]
      exact_mod_cast (by omega : (a % b) * 2 = 1 * b)
    push_cast; linarith
  · have h' : ((a % b : Nat) : ℚ) / b = 1 / 2 := by
      rw [div_eq_div_iff hbq.ne' (by norm_num : (2 : ℚ) ≠ 0)]
      exact_mod_cast (by omega : (a % b) * 2 = 1 * b)
    push_cast; linarith

theorem rheND_congr {a b a' b' : Nat} (hb : 0 < b) (hb' : 0 < b')
    (h : (a : ℚ) / b = (a' : ℚ) / b') : rheND a b = rheND a' b' := by
  have hbq : (0 : ℚ) < (b : ℚ) := by exact_mod_cast hb
  have hbq' : (0 : ℚ) < (b' : ℚ) := by exact_mod_cast hb'
  have hfloor : a / b = a' / b' := by
    have h1 : ⌊(a : ℚ) / b⌋₊ = a / b := Nat.floor_div_eq_div a b
    have h2 : ⌊(a' : ℚ) / b'⌋₊ = a' / b' := Nat.floor_div_eq_div a' b'
    rw [← h1, ← h2, h]
  have key := cast_div_eq (a := a) hb
  have key' := cast_div_eq (a := a') hb'
  have hfrac : ((a % b : Nat) : ℚ) / b = ((a' % b' : Nat) : ℚ) / b' := by
    have hq : ((a / b : Nat) : ℚ) = ((a' / b' : Nat) : ℚ) := by exact_mod_cast hfloor
    rw [key, key', hq] at h
    linarith
  have e1 : (2 * (a % b) < b) ↔ (2 * (a' % b') < b') := by
    rw [← frac_lt_half_iff hb, ← frac_lt_half_iff hb', hfrac]
  have e2 : (b < 2 * (a % b)) ↔ (b' < 2 * (a' % b')) := by
    rw [← half_lt_frac_iff hb, ← half_lt_frac_iff hb', hfrac]
  simp only [rheND]
  rw [hfloor]
  by_cases c1 : 2 * (a' % b') < b'
  · rw [if_pos (e1.2 c1), if_pos c1]
  · rw [if_neg (fun hc => c1 (e1.1 hc)), if_neg c1]
    by_cases c2 : b' < 2 * (a' % b')
    · rw [if_pos (e2.2 c2), if_pos c2]
    · rw [if_neg (fun hc => c2 (e2.1 hc)), if_neg c2]

theorem rheND_mono {a b a' b' : Nat} (hb : 0 < b) (hb' : 0 < b')
    (h : (a : ℚ) / b ≤ (a' : ℚ) / b') : rheND a b ≤ rheND a' b' := by
  rcases eq_or_lt_of_le h with heq | hlt
  · exact (rheND_congr hb hb' heq).le
  · have h1 := rheND_le (a := a) hb
    have h2 := le_rheND (a := a') hb'
    have : (rheND a b : ℚ) < (rheND a' b' : ℚ) + 1 := by linarith
    exact_mod_cast Nat.lt_succ_iff.1 (by exact_mod_cast this)

theorem RNnd_den_pos (a b : Nat) : 0 < (RNnd a b).2 := by
  simp only [RNnd]; split_ifs <;> positivity

theorem qval_nonneg (p : Nat × Nat) : 0 ≤ qval p := by
  unfold qval; positivity

/-- The mantissa produced by rounding a value lying in the binade window
`[2^52, 2^53)` to the nearest integer lies in `[2^52, 2^53]`. -/
theorem window_bounds {x : ℚ} {r : Nat} (hx1 : ((2 ^ 52 : Nat) : ℚ) ≤ x)
    (hx2 : x < ((2 ^ 53 : Nat) : ℚ)) (hr1 : x - 1 / 2 ≤ (r : ℚ))
    (hr2 : (r : ℚ) ≤ x + 1 / 2) : 2 ^ 52 ≤ r ∧ r ≤ 2 ^ 53 := by
  push_cast at hx1 hx2
  norm_num at hx1 hx2
  have h1 : (4503599627370495 : ℚ) < (r : ℚ) := by linarith
  have h1n : (4503599627370495 : Nat) < r := by exact_mod_cast h1
  have h2 : (r : ℚ) < (9007199254740993 : ℚ) := by linarith
  have h2n : r < (9007199254740993 : Nat) := by exact_mod_cast h2
  constructor <;> · norm_num; omega

/-- The binary64 rounding of a positive value stays inside its binade
(possibly landing on the upper end). -/
theorem RNnd_window {a b : Nat} (ha : 0 < a) (hb : 0 < b) :
    (2 : ℚ) ^ expoND a b ≤ qval (RNnd a b) ∧
      qval (RNnd a b) ≤ (2 : ℚ) ^ (expoND a b + 1) := by
  have hbq : (0 : ℚ) < (b : ℚ) := by exact_mod_cast hb
  have haq : (0 : ℚ) < (a : ℚ) := by exact_mod_cast ha
  have hbr1 := expoND_le ha hb
  have hbr2 := lt_expoND ha hb
  set E := expoND a b with hE
  have hne : ¬(a = 0 ∨ b = 0) := by omega
  rw [RNnd, if_neg hne]
  dsimp only
  by_cases hsgn : (0 : Int) ≤ E - 52
  · rw [if_pos hsgn]
    set t := (E - 52).toNat with ht
    have htE : (t : Int) = E - 52 := Int.toNat_of_nonneg hsgn
    have h2E : (2 : ℚ) ^ E = 2 ^ t * 2 ^ 52 := by
      have : E = (t : Int) + 52 := by omega
      rw [this, zpow_add₀ (by norm_num : (2:ℚ) ≠ 0), zpow_natCast]
      norm_num
    have h2E1 : (2 : ℚ) ^ (E + 1) = 2 ^ t * 2 ^ 53 := by
      have : E + 1 = (t : Int) + 53 := by omega
      rw [this, zpow_add₀ (by norm_num : (2:ℚ) ≠ 0), zpow_natCast]
      norm_num
    have hbt : 0 < b * 2 ^ t := by positivity
    have hbtq : (0 : ℚ) < ((b * 2 ^ t : Nat) : ℚ) := by exact_mod_cast hbt
    set r := rheND a (b * 2 ^ t) with hr
    have hx1 : ((2 ^ 52 : Nat) : ℚ) ≤ (a : ℚ) / ((b * 2 ^ t : Nat) : ℚ) := by
      rw [le_div_iff₀ hbtq]
      rw [h2E, le_div_iff₀ hbq] at hbr1
      push_cast
      push_cast at hbr1
      nlinarith
    have hx2 : (a : ℚ) / ((b * 2 ^ t : Nat) : ℚ) < ((2 ^ 53 : Nat) : ℚ) := by
      rw [div_lt_iff₀ hbtq]
      rw [h2E1, div_lt_iff₀ hbq] at hbr2
      push_cast
      push_cast at hbr2
      nlinarith
    obtain ⟨hw1, hw2⟩ := window_bounds (r := r) hx1 hx2
      (by linarith [le_rheND (a := a) hbt]) (by linarith [rheND_le (a := a) hbt])
    have hqv : qval (r * 2 ^ t, 1) = (r : ℚ) * 2 ^ t := by
      unfold qval; push_cast; simp
    have h2tq : (0 : ℚ) < (2 : ℚ) ^ t := by positivity
    constructor
    · rw [hqv, h2E]
      have hle : ((2 ^ 52 : Nat) : ℚ) ≤ (r : ℚ) := by exact_mod_cast hw1
      push_cast at hle
      nlinarith
    · rw [hqv, h2E1]
      have hle : (r : ℚ) ≤ ((2 ^ 53 : Nat) : ℚ) := by exact_mod_cast hw2
      push_cast at hle
      nlinarith
  · rw [if_neg hsgn]
    set t := (-(E - 52)).toNat with ht
    have htE : (t : Int) = 52 - E := by
      rw [ht, Int.toNat_of_nonneg (by omega)]
      omega
    have h2E : (2 : ℚ) ^ E * 2 ^ t = 2 ^ 52 := by
      rw [← zpow_natCast (2 : ℚ) t, ← zpow_add₀ (by norm_num : (2:ℚ) ≠ 0)]
      rw [show E + (t : Int) = ((52 : Nat) : Int) by omega, zpow_natCast]
    have h2E1 : (2 : ℚ) ^ (E + 1) * 2 ^ t = 2 ^ 53 := by
      rw [← zpow_natCast (2 : ℚ) t, ← zpow_add₀ (by norm_num : (2:ℚ) ≠ 0)]
      rw [show (E + 1) + (t : Int) = ((53 : Nat) : Int) by omega, zpow_natCast]
    norm_num at h2E h2E1
    set r := rheND (a * 2 ^ t) b with hr
    have hx1 : ((2 ^ 52 : Nat) : ℚ) ≤ ((a * 2 ^ t : Nat) : ℚ) / (b : ℚ) := by
      rw [le_div_iff₀ hbq]
      push_cast
      rw [le_div_iff₀ hbq] at hbr1
      nlinarith [pow_pos (by norm_num : (0:ℚ) < 2) t]
    have hx2 : ((a * 2 ^ t : Nat) : ℚ) / (b : ℚ) < ((2 ^ 53 : Nat) : ℚ) := by
      rw [div_lt_iff₀ hbq]
      push_cast
      rw [div_lt_iff₀ hbq] at hbr2
      nlinarith [pow_pos (by norm_num : (0:ℚ) < 2) t]
    obtain ⟨hw1, hw2⟩ := window_bounds (r := r) hx1 hx2
      (by linarith [le_rheND (a := a * 2 ^ t) hb])
      (by linarith [rheND_le (a := a * 2 ^ t) hb])
    have h2tq : (0 : ℚ) < (2 : ℚ) ^ t := by positivity
    have hqv : qval (r, 2 ^ t) = (r : ℚ) / 2 ^ t := by
      unfold qval; push_cast; ring
    constructor
    · rw [hqv, le_div_iff₀ h2tq, h2E]
      have : ((2 ^ 52 : Nat) : ℚ) ≤ (r : ℚ) := by exact_mod_cast hw1
      push_cast at this ⊢
      linarith
    · rw [hqv, div_le_iff₀ h2tq, h2E1]
      have : (r : ℚ) ≤ ((2 ^ 53 : Nat) : ℚ) := by exact_mod_cast hw2
      push_cast at this ⊢
      linarith


theorem RNnd_mono {a b a' b' : Nat} (hb : 0 < b) (hb' : 0 < b')
    (h : (a : ℚ) / b ≤ (a' : ℚ) / b') :
    qval (RNnd a b) ≤ qval (RNnd a' b') := by
  rcases Nat.eq_zero_or_pos a with rfl | ha
  · have h0 : RNnd 0 b = (0, 1) := by simp [RNnd]
    rw [h0]
    have hq : qval (0, 1) = 0 := by simp [qval]
    rw [hq]
    exact qval_nonneg _
  have haq : (0 : ℚ) < (a : ℚ) := by exact_mod_cast ha
  have hbq : (0 : ℚ) < (b : ℚ) := by exact_mod_cast hb
  have hb'q : (0 : ℚ) < (b' : ℚ) := by exact_mod_cast hb'
  have ha' : 0 < a' := by
    rcases Nat.eq_zero_or_pos a' with rfl | h' 
    · exfalso
      have hpos : (0 : ℚ) < (a : ℚ) / b := by positivity
      simp only [Nat.cast_zero, zero_div] at h
      linarith
    · exact h'
  have w := RNnd_window ha hb
  have w' := RNnd_window ha' hb'
  have hEE' : expoND a b ≤ expoND a' b' := by
    have h1 : (2 : ℚ) ^ expoND a b < 2 ^ (expoND a' b' + 1) :=
      lt_of_le_of_lt (le_trans (expoND_le ha hb) h) (lt_expoND ha' hb')
    have := (zpow_lt_zpow_iff_right₀ (by norm_num : (1:ℚ) < 2)).1 h1
    omega
  rcases lt_or_eq_of_le hEE' with hLt | hEq
  · calc qval (RNnd a b) ≤ 2 ^ (expoND a b + 1) := w.2
    _ ≤ 2 ^ expoND a' b' :=
        zpow_le_zpow_right₀ (by norm_num : (1:ℚ) ≤ 2) (by omega)
    _ ≤ qval (RNnd a' b') := w'.1
  · have hne : ¬(a = 0 ∨ b = 0) := by omega
    have hne' : ¬(a' = 0 ∨ b' = 0) := by omega
    unfold qval
    rw [RNnd, if_neg hne, RNnd, if_neg hne']
    dsimp only
    rw [← hEq]
    by_cases hsgn : (0 : Int) ≤ expoND a b - 52
    · rw [if_pos hsgn, if_pos hsgn]
      set t := (expoND a b - 52).toNat with ht
      have hbt : 0 < b * 2 ^ t := by positivity
      have hbt' : 0 < b' * 2 ^ t := by positivity
      have hv : (a : ℚ) / ((b * 2 ^ t : Nat) : ℚ) ≤ (a' : ℚ) / ((b' * 2 ^ t : Nat) : ℚ) := by
        push_cast
        rw [← div_div, ← div_div]
        gcongr
      have hm : (rheND a (b * 2 ^ t) : ℚ) ≤ (rheND a' (b' * 2 ^ t) : ℚ) := by
        exact_mod_cast rheND_mono hbt hbt' hv
      push_cast
      have h2t : (0 : ℚ) ≤ (2 : ℚ) ^ t := by positivity
      rw [div_one, div_one]
      nlinarith
    · rw [if_neg hsgn, if_neg hsgn]
      set t := (-(expoND a b - 52)).toNat with ht
      have h2t : (0 : ℚ) < (2 : ℚ) ^ t := by positivity
      have hv : ((a * 2 ^ t : Nat) : ℚ) / (b : ℚ) ≤ ((a' * 2 ^ t : Nat) : ℚ) / (b' : ℚ) := by
        push_cast
        rw [mul_comm (a : ℚ) _, mul_comm (a' : ℚ) _, mul_div_assoc, mul_div_assoc]
        exact mul_le_mul_of_nonneg_left h h2t.le
      have hm : (rheND (a * 2 ^ t) b : ℚ) ≤ (rheND (a' * 2 ^ t) b' : ℚ) := by
        exact_mod_cast rheND_mono hb hb' hv
      push_cast
      gcongr

theorem rheND_exact {a b : Nat} (hb : 0 < b) (hdvd : b ∣ a) : rheND a b = a / b := by
  obtain ⟨c, rfl⟩ := hdvd
  simp only [rheND, Nat.mul_mod_right]
  rw [if_pos (by omega : 2 * 0 < b)]

theorem RNnd_exact_pair {a b : Nat} (hb : 0 < b) (hdvd : b ∣ a)
    (hlt : a / b < 2 ^ 53) : ∃ t : Nat, RNnd a b = (a / b * 2 ^ t, 2 ^ t) := by
  rcases Nat.eq_zero_or_pos a with rfl | ha
  · exact ⟨0, by simp [RNnd]⟩
  · have hba : b ≤ a := Nat.le_of_dvd ha hdvd
    have hQpos : 0 < a / b := Nat.div_pos hba hb
    have hne : ¬(a = 0 ∨ b = 0) := by omega
    have hE : expoND a b = (nlog2 (a / b) : Int) := by rw [expoND, if_pos hba]
    have hlog : nlog2 (a / b) ≤ 52 := by
      obtain ⟨hl, _⟩ := nlog2_spec hQpos
      by_contra hc
      push_neg at hc
      have : 2 ^ 53 ≤ a / b :=
        le_trans (Nat.pow_le_pow_right (by norm_num) hc) hl
      omega
    rw [RNnd, if_neg hne]
    dsimp only
    by_cases hsgn : (0 : Int) ≤ expoND a b - 52
    · rw [if_pos hsgn]
      have h52 : expoND a b = 52 := by
        rw [hE] at hsgn ⊢
        omega
      refine ⟨0, ?_⟩
      have ht0 : (expoND a b - 52).toNat = 0 := by rw [h52]; rfl
      rw [ht0]
      norm_num
      exact rheND_exact hb hdvd
    · rw [if_neg hsgn]
      set t := (-(expoND a b - 52)).toNat with ht
      refine ⟨t, ?_⟩
      have hdvd' : b ∣ a * 2 ^ t := Dvd.dvd.mul_right hdvd _
      have hx : rheND (a * 2 ^ t) b = a * 2 ^ t / b := rheND_exact hb hdvd'
      rw [hx]
      have : a * 2 ^ t / b = a / b * 2 ^ t := by
        obtain ⟨c, rfl⟩ := hdvd
        rw [Nat.mul_div_cancel_left c hb, mul_assoc, Nat.mul_div_cancel_left _ hb]
      rw [this]

/-- Natural division of the pair components is the floor of the value. -/
theorem div_qval_eq (p : Nat × Nat) : p.1 / p.2 = ⌊qval p⌋₊ := by
  unfold qval
  exact (Nat.floor_div_eq_div p.1 p.2).symm

theorem now64_mono (fps : Nat) {f f' : Nat} (h : f ≤ f') :
    now64 fps f ≤ now64 fps f' := by
  unfold now64
  dsimp only
  have h1 : qval (RNnd f 1) ≤ qval (RNnd f' 1) := by
    apply RNnd_mono (by norm_num) (by norm_num)
    simp only [Nat.cast_one, div_one]
    exact_mod_cast h
  have h2 : ((RNnd f 1).1 * (RNnd 1000 fps).1 : ℚ) /
        (((RNnd f 1).2 * (RNnd 1000 fps).2 : Nat) : ℚ) ≤
      ((RNnd f' 1).1 * (RNnd 1000 fps).1 : ℚ) /
        (((RNnd f' 1).2 * (RNnd 1000 fps).2 : Nat) : ℚ) := by
    push_cast
    rw [← div_mul_div_comm, ← div_mul_div_comm]
    exact mul_le_mul_of_nonneg_right h1 (qval_nonneg _)
  have hp1 : 0 < (RNnd f 1).2 * (RNnd 1000 fps).2 :=
    Nat.mul_pos (RNnd_den_pos _ _) (RNnd_den_pos _ _)
  have hp2 : 0 < (RNnd f' 1).2 * (RNnd 1000 fps).2 :=
    Nat.mul_pos (RNnd_den_pos _ _) (RNnd_den_pos _ _)
  have h3 := RNnd_mono hp1 hp2 (by exact_mod_cast h2)
  have h4 :
      (RNnd ((RNnd f 1).1 * (RNnd 1000 fps).1) ((RNnd f 1).2 * (RNnd 1000 fps).2)).1 /
        (RNnd ((RNnd f 1).1 * (RNnd 1000 fps).1) ((RNnd f 1).2 * (RNnd 1000 fps).2)).2 ≤
      (RNnd ((RNnd f' 1).1 * (RNnd 1000 fps).1) ((RNnd f' 1).2 * (RNnd 1000 fps).2)).1 /
        (RNnd ((RNnd f' 1).1 * (RNnd 1000 fps).1) ((RNnd f' 1).2 * (RNnd 1000 fps).2)).2 := by
    rw [div_qval_eq, div_qval_eq]
    exact Nat.floor_mono h3
  exact min_le_min h4 le_rfl

theorem now64_exact {fps f : Nat} (hfps : 0 < fps) (hdvd : fps ∣ 1000)
    (hlt : f * (1000 / fps) < 2 ^ 53) : now64 fps f = f * 1000 / fps := by
  have hkpos : 0 < 1000 / fps := Nat.div_pos (Nat.le_of_dvd (by norm_num) hdvd) hfps
  have h1000 : fps * (1000 / fps) = 1000 := Nat.mul_div_cancel' hdvd
  have hf53 : f < 2 ^ 53 :=
    lt_of_le_of_lt (Nat.le_mul_of_pos_right f hkpos) hlt
  obtain ⟨t1, hd⟩ := RNnd_exact_pair hfps hdvd
    (lt_of_le_of_lt (Nat.div_le_self 1000 fps) (by norm_num))
  obtain ⟨t2, hfc⟩ := RNnd_exact_pair (show 0 < 1 by norm_num) (one_dvd f)
    (by rw [Nat.div_one]; exact hf53)
  rw [Nat.div_one] at hfc
  unfold now64
  rw [hd, hfc]
  dsimp only
  have hbpos : 0 < 2 ^ t2 * 2 ^ t1 := by positivity
  have hdvd2 : 2 ^ t2 * 2 ^ t1 ∣ f * 2 ^ t2 * (1000 / fps * 2 ^ t1) :=
    ⟨f * (1000 / fps), by ring⟩
  have hdiveq :
      f * 2 ^ t2 * (1000 / fps * 2 ^ t1) / (2 ^ t2 * 2 ^ t1) = f * (1000 / fps) := by
    rw [show f * 2 ^ t2 * (1000 / fps * 2 ^ t1) =
        f * (1000 / fps) * (2 ^ t2 * 2 ^ t1) by ring]
    exact Nat.mul_div_cancel _ hbpos
  obtain ⟨t3, hn⟩ := RNnd_exact_pair hbpos hdvd2 (by rw [hdiveq]; exact hlt)
  rw [hn, hdiveq]
  dsimp only
  rw [Nat.mul_div_cancel _ (by positivity : (0:Nat) < 2 ^ t3)]
  have hmin : min (f * (1000 / fps)) (2 ^ 64 - 1) = f * (1000 / fps) := by
    apply min_eq_left
    have h64 : (2:Nat) ^ 53 ≤ 2 ^ 64 - 1 := by norm_num
    omega
  rw [hmin]
  have hfinal : f * 1000 / fps = f * (1000 / fps) := by
    conv_lhs => rw [← h1000]
    rw [show f * (fps * (1000 / fps)) = fps * (f * (1000 / fps)) by ring,
      Nat.mul_div_cancel_left _ hfps]
  exact hfinal.symm

/-! ## Characterization of the scheduler phases -/

/-- Outcome of expiry followed by promotion, assuming the two slots are not
both occupied: the six possible transitions of the cue state machine. -/
theorem sched_cases {now : Nat} {s : MachineState}
    (hx : ¬(s.active_sub.isSome ∧ s.queued_sub.isSome)) :
    (∃ c, s.active_sub = some c ∧ now < c.end_ ∧
      promotePhase now (expirePhase now s) = s) ∨
    (∃ c, s.active_sub = some c ∧ c.end_ ≤ now ∧ s.queued_sub = none ∧
      promotePhase now (expirePhase now s) = { s with active_sub := none }) ∨
    (s.active_sub = none ∧ s.queued_sub = none ∧
      promotePhase now (expirePhase now s) = s) ∨
    (∃ c, s.active_sub = none ∧ s.queued_sub = some c ∧ c.end_ ≤ now ∧
      promotePhase now (expirePhase now s) = { s with queued_sub := none }) ∨
    (∃ c, s.active_sub = none ∧ s.queued_sub = some c ∧ c.start ≤ now ∧
      now < c.end_ ∧ promotePhase now (expirePhase now s) =
        { s with active_sub := some c, queued_sub := none }) ∨
    (∃ c, s.active_sub = none ∧ s.queued_sub = some c ∧ now < c.start ∧
      now < c.end_ ∧ promotePhase now (expirePhase now s) = s) := by
  rcases hA : s.active_sub with _ | c
  · rcases hQ : s.queued_sub with _ | c
    · refine Or.inr (Or.inr (Or.inl ⟨rfl, rfl, ?_⟩))
      simp [expirePhase, promotePhase, hA, hQ]
    · by_cases h1 : c.end_ ≤ now
      · refine Or.inr (Or.inr (Or.inr (Or.inl ⟨c, rfl, rfl, h1, ?_⟩)))
        simp [expirePhase, promotePhase, hA, hQ, Nat.not_lt.2 h1]
      · by_cases h2 : c.start ≤ now
        · refine Or.inr (Or.inr (Or.inr (Or.inr (Or.inl
            ⟨c, rfl, rfl, h2, Nat.lt_of_not_le h1, ?_⟩))))
          simp [expirePhase, promotePhase, hA, hQ, Nat.lt_of_not_le h1, h2]
        · refine Or.inr (Or.inr (Or.inr (Or.inr (Or.inr
            ⟨c, rfl, rfl, Nat.lt_of_not_le h2, Nat.lt_of_not_le h1, ?_⟩))))
          have heta : { s with active_sub := none, queued_sub := some c } = s := by
            cases s
            simp_all
          simp [expirePhase, promotePhase, hA, hQ, Nat.lt_of_not_le h1,
            Nat.not_le.2 (Nat.lt_of_not_le h2), heta]
  · have hQ : s.queued_sub = none := by
      rcases hq : s.queued_sub with _ | d
      · rfl
      · exact absurd ⟨by simp [hA], by simp [hq]⟩ hx
    by_cases h1 : c.end_ ≤ now
    · refine Or.inr (Or.inl ⟨c, rfl, h1, hQ, ?_⟩)
      have hstep1 : expirePhase now s = { s with active_sub := none } := by
        simp [expirePhase, hA, h1]
      rw [hstep1]
      simp [promotePhase, hQ]
    · refine Or.inl ⟨c, rfl, Nat.lt_of_not_le h1, ?_⟩
      have hstep1 : expirePhase now s = s := by
        simp [expirePhase, hA, Nat.not_le.2 (Nat.lt_of_not_le h1)]
      rw [hstep1]
      simp [promotePhase, hA]

/-- Outcome of the refill / late-promotion phase: the seven possible
transitions. -/
theorem ingest_cases (now : Nat) (s : MachineState) :
    (s.active_sub = none ∧ s.queued_sub = none ∧ s.input = [] ∧
      ingestPhase now s = Sum.inr (s, ExitReason.eof)) ∨
    (∃ e rest, s.active_sub = none ∧ s.queued_sub = none ∧
      s.input = Except.error e :: rest ∧
      ingestPhase now s = Sum.inr ({ s with input := rest }, ExitReason.readErr)) ∨
    (∃ line rest, s.active_sub = none ∧ s.queued_sub = none ∧
      s.input = Except.ok line :: rest ∧ parse_line line = none ∧
      ingestPhase now s =
        Sum.inl { s with input := rest, skipped := s.skipped ++ [line] }) ∨
    (∃ line rest sub, s.active_sub = none ∧ s.queued_sub = none ∧
      s.input = Except.ok line :: rest ∧ parse_line line = some sub ∧
      sub.start ≤ now ∧ now < sub.end_ ∧
      ingestPhase now s = Sum.inl
        { s with input := rest, active_sub := some sub, queued_sub := none }) ∨
    (∃ line rest sub, s.active_sub = none ∧ s.queued_sub = none ∧
      s.input = Except.ok line :: rest ∧ parse_line line = some sub ∧
      ¬(sub.start ≤ now ∧ now < sub.end_) ∧
      ingestPhase now s = Sum.inl { s with input := rest, queued_sub := some sub }) ∨
    (∃ c, ¬(s.active_sub = none ∧ s.queued_sub = none) ∧ s.queued_sub = some c ∧
      s.active_sub = none ∧ c.start ≤ now ∧ now < c.end_ ∧
      ingestPhase now s = Sum.inl { s with active_sub := some c, queued_sub := none }) ∨
    (¬(s.active_sub = none ∧ s.queued_sub = none) ∧ ingestPhase now s = Sum.inl s) := by
  by_cases hb : s.active_sub = none ∧ s.queued_sub = none
  · rcases hi : s.input with _ | ⟨lineRes, rest⟩
    · exact Or.inl ⟨hb.1, hb.2, rfl, by simp [ingestPhase, hb.1, hb.2, hi]⟩
    · rcases lineRes with e | line
      · refine Or.inr (Or.inl ⟨e, rest, hb.1, hb.2, rfl, ?_⟩)
        simp [ingestPhase, hb.1, hb.2, hi]
      · rcases hp : parse_line line with _ | sub
        · refine Or.inr (Or.inr (Or.inl ⟨line, rest, hb.1, hb.2, rfl, hp, ?_⟩))
          simp [ingestPhase, hb.1, hb.2, hi, hp]
        · by_cases hw : sub.start ≤ now ∧ now < sub.end_
          · refine Or.inr (Or.inr (Or.inr (Or.inl
              ⟨line, rest, sub, hb.1, hb.2, rfl, hp, hw.1, hw.2, ?_⟩)))
            simp [ingestPhase, hb.1, hb.2, hi, hp, hw]
          · refine Or.inr (Or.inr (Or.inr (Or.inr (Or.inl
              ⟨line, rest, sub, hb.1, hb.2, rfl, hp, hw, ?_⟩))))
            simp [ingestPhase, hb.1, hb.2, hi, hp, hw]
  · rcases hq : s.queued_sub with _ | c
    · have hA : ¬s.active_sub = none := fun h => hb ⟨h, hq⟩
      refine Or.inr (Or.inr (Or.inr (Or.inr (Or.inr (Or.inr
        ⟨by simpa [hq] using hb, ?_⟩)))))
      rcases hA' : s.active_sub with _ | c0
      · exact absurd hA' hA
      · simp [ingestPhase, hA', hq]
    · by_cases hcond : s.active_sub = none ∧ c.start ≤ now ∧ now < c.end_
      · refine Or.inr (Or.inr (Or.inr (Or.inr (Or.inr (Or.inl
          ⟨c, by simpa [hq] using hb, rfl, hcond.1, hcond.2.1, hcond.2.2, ?_⟩)))))
        simp [ingestPhase, hq, hcond.1, hcond.2.1, hcond.2.2]
      · refine Or.inr (Or.inr (Or.inr (Or.inr (Or.inr (Or.inr
          ⟨by simpa [hq] using hb, ?_⟩)))))
        simp [ingestPhase, hq, hcond]

/-- Outcome of the rendering phase: the five possible actions. -/
theorem render_cases (now : Nat) (s : MachineState) :
    (∃ c, s.active_sub = some c ∧
      s.last_rendered_key ≠ some (c.start, c.end_) ∧
      renderPhase now s = ({ s with
        surface := SurfState.drawn (c.start, c.end_) c.lines,
        drawLog := s.drawLog ++ [((c.start, c.end_), s.frame_count)],
        last_rendered_key := some (c.start, c.end_),
        is_cleared := false }, true)) ∨
    (∃ c, s.active_sub = some c ∧
      s.last_rendered_key = some (c.start, c.end_) ∧ now < c.start ∧
      s.is_cleared = false ∧
      renderPhase now s =
        ({ s with
            surface := SurfState.cleared,
            is_cleared := true,
            preClears := s.preClears + 1 }, true)) ∨
    (∃ c, s.active_sub = some c ∧
      s.last_rendered_key = some (c.start, c.end_) ∧
      ¬(now < c.start ∧ s.is_cleared = false) ∧
      renderPhase now s = (s, false)) ∨
    (s.active_sub = none ∧ s.is_cleared = false ∧
      renderPhase now s =
        ({ s with
            surface := SurfState.cleared,
            last_rendered_key := none,
            is_cleared := true }, true)) ∨
    (s.active_sub = none ∧ s.is_cleared = true ∧ renderPhase now s = (s, false)) := by
  rcases hA : s.active_sub with _ | c
  · rcases hic : s.is_cleared with _ | _
    · exact Or.inr (Or.inr (Or.inr (Or.inl
        ⟨rfl, rfl, by simp [renderPhase, hA, hic]⟩)))
    · exact Or.inr (Or.inr (Or.inr (Or.inr
        ⟨rfl, rfl, by simp [renderPhase, hA, hic]⟩)))
  · by_cases hk : s.last_rendered_key = some (c.start, c.end_)
    · by_cases hpre : now < c.start ∧ s.is_cleared = false
      · refine Or.inr (Or.inl ⟨c, rfl, hk, hpre.1, hpre.2, ?_⟩)
        simp [renderPhase, hA, hk, hpre]
      · refine Or.inr (Or.inr (Or.inl ⟨c, rfl, hk, hpre, ?_⟩))
        simp only [renderPhase, hA]
        rw [if_neg (by simp [hk]), if_neg hpre]
    · refine Or.inl ⟨c, rfl, hk, ?_⟩
      simp [renderPhase, hA, hk]

/-- The tick body, written as the composition of its phases. -/
theorem step_unfold (fps : Nat) (B : Backend) (wfail : Nat → Bool)
    (s : MachineState) :
    step fps B wfail s =
      match ingestPhase (now64 fps s.frame_count)
          (promotePhase (now64 fps s.frame_count)
            (expirePhase (now64 fps s.frame_count) s)) with
      | Sum.inr (sh, r) => StepRes.halted sh r
      | Sum.inl s3 =>
        (fun s5 : MachineState =>
          if wfail s5.frame_count then StepRes.halted s5 ExitReason.writeErr
          else StepRes.next
            { s5 with
                output := s5.output ++ [s5.pixel_buffer],
                frame_count := s5.frame_count + 1 })
        (if (renderPhase (now64 fps s.frame_count) s3).2 then
            { (renderPhase (now64 fps s.frame_count) s3).1 with
              pixel_buffer :=
                B.render (renderPhase (now64 fps s.frame_count) s3).1.surface }
          else (renderPhase (now64 fps s.frame_count) s3).1) := rfl


/-- Expiry only touches the active slot. -/
theorem expirePhase_fields (now : Nat) (s : MachineState) :
    (expirePhase now s).frame_count = s.frame_count ∧
    (expirePhase now s).queued_sub = s.queued_sub ∧
    (expirePhase now s).last_rendered_key = s.last_rendered_key ∧
    (expirePhase now s).is_cleared = s.is_cleared ∧
    (expirePhase now s).surface = s.surface ∧
    (expirePhase now s).pixel_buffer = s.pixel_buffer ∧
    (expirePhase now s).input = s.input ∧
    (expirePhase now s).output = s.output ∧
    (expirePhase now s).drawLog = s.drawLog ∧
    (expirePhase now s).skipped = s.skipped ∧
    (expirePhase now s).preClears = s.preClears := by
  rcases hA : s.active_sub with _ | c
  · simp [expirePhase, hA]
  · simp only [expirePhase, hA]
    split_ifs <;> simp

/-- Promotion only touches the two cue slots. -/
theorem promotePhase_fields (now : Nat) (s : MachineState) :
    (promotePhase now s).frame_count = s.frame_count ∧
    (promotePhase now s).last_rendered_key = s.last_rendered_key ∧
    (promotePhase now s).is_cleared = s.is_cleared ∧
    (promotePhase now s).surface = s.surface ∧
    (promotePhase now s).pixel_buffer = s.pixel_buffer ∧
    (promotePhase now s).input = s.input ∧
    (promotePhase now s).output = s.output ∧
    (promotePhase now s).drawLog = s.drawLog ∧
    (promotePhase now s).skipped = s.skipped ∧
    (promotePhase now s).preClears = s.preClears := by
  by_cases hA : s.active_sub = none
  · rcases hQ : s.queued_sub with _ | c
    · simp [promotePhase, hA, hQ]
    · simp only [promotePhase, hA, hQ, if_pos]
      split_ifs <;> simp
  · simp [promotePhase, hA]

/-- The ingestion phase, when it continues, only touches the cue slots,
the input stream and the skip diagnostics. -/
theorem ingestPhase_inl_fields {now : Nat} {s s3 : MachineState}
    (h : ingestPhase now s = Sum.inl s3) :
    s3.frame_count = s.frame_count ∧
    s3.last_rendered_key = s.last_rendered_key ∧
    s3.is_cleared = s.is_cleared ∧
    s3.surface = s.surface ∧
    s3.pixel_buffer = s.pixel_buffer ∧
    s3.output = s.output ∧
    s3.drawLog = s.drawLog ∧
    s3.preClears = s.preClears := by
  rcases ingest_cases now s with
    ⟨_, _, _, he⟩ | ⟨e, rest, _, _, _, he⟩ | ⟨line, rest, _, _, _, _, he⟩ |
    ⟨line, rest, sub, _, _, _, _, _, _, he⟩ |
    ⟨line, rest, sub, _, _, _, _, _, he⟩ | ⟨c, _, _, _, _, _, he⟩ | ⟨_, he⟩ <;>
    rw [he] at h <;> first
      | (injection h with h'; subst h'; simp)
      | (cases h)

/-- The rendering phase only touches the surface, the cache key, the
cleared flag, the draw log and the pre-start-clear counter. -/
theorem renderPhase_fields (now : Nat) (s : MachineState) :
    (renderPhase now s).1.frame_count = s.frame_count ∧
    (renderPhase now s).1.active_sub = s.active_sub ∧
    (renderPhase now s).1.queued_sub = s.queued_sub ∧
    (renderPhase now s).1.pixel_buffer = s.pixel_buffer ∧
    (renderPhase now s).1.input = s.input ∧
    (renderPhase now s).1.output = s.output ∧
    (renderPhase now s).1.skipped = s.skipped := by
  rcases render_cases now s with
    ⟨c, _, _, he⟩ | ⟨c, _, _, _, _, he⟩ | ⟨c, _, _, _, he⟩ | ⟨_, _, he⟩ | ⟨_, _, he⟩ <;>
    rw [he] <;> simp

/-- The tick body is the scheduler phases followed by `emitStep`. -/
theorem step_decompose (fps : Nat) (B : Backend) (wfail : Nat → Bool)
    (s : MachineState) :
    step fps B wfail s =
      match ingestPhase (now64 fps s.frame_count)
          (promotePhase (now64 fps s.frame_count)
            (expirePhase (now64 fps s.frame_count) s)) with
      | Sum.inr (sh, r) => StepRes.halted sh r
      | Sum.inl s3 => emitStep fps B wfail s3 := by
  rw [step_unfold]
  rcases hig : ingestPhase (now64 fps s.frame_count)
      (promotePhase (now64 fps s.frame_count)
        (expirePhase (now64 fps s.frame_count) s)) with s3 | ⟨sh, r⟩
  · have hfc : s3.frame_count = s.frame_count := by
      have h1 := (ingestPhase_inl_fields hig).1
      have h2 := (promotePhase_fields (now64 fps s.frame_count)
        (expirePhase (now64 fps s.frame_count) s)).1
      have h3 := (expirePhase_fields (now64 fps s.frame_count) s).1
      omega
    simp only [emitStep, hfc]
  · rfl


/-- `emitStep` preserves the scheduler invariant, given the mid-tick facts
established by the scheduler phases. -/
theorem SchedInv_emit {fps : Nat} {B : Backend} {wfail : Nat → Bool}
    {s3 s' : MachineState}
    (F1 : ¬(s3.active_sub.isSome ∧ s3.queued_sub.isSome))
    (F2 : ∀ c, s3.active_sub = some c →
      c.start ≤ now64 fps s3.frame_count ∧ now64 fps s3.frame_count < c.end_)
    (F3 : ∀ e ∈ s3.drawLog, e.2 < s3.frame_count ∧
      e.1.1 ≤ now64 fps e.2 ∧ now64 fps e.2 < e.1.2)
    (F4 : ∀ K ∈ s3.drawLog.map Prod.fst,
      (s3.last_rendered_key = some K ∧
        ∃ c, s3.active_sub = some c ∧ (c.start, c.end_) = K) ∨
      ∃ t, t ≤ s3.frame_count ∧ K.2 ≤ now64 fps t)
    (F5 : (s3.drawLog.map Prod.fst).Nodup)
    (F6 : s3.preClears = 0)
    (hstep : emitStep fps B wfail s3 = StepRes.next s') :
    SchedInv fps s' := by
  unfold emitStep at hstep
  rcases render_cases (now64 fps s3.frame_count) s3 with
    ⟨c, hA, hk, he⟩ | ⟨c, hA, hk, hlt, hic, he⟩ | ⟨c, hA, hk, hnc, he⟩ |
    ⟨hA, hic, he⟩ | ⟨hA, hic, he⟩
  · -- redraw
    rw [he] at hstep
    simp only [eq_self_iff_true, if_true] at hstep
    by_cases hw : wfail s3.frame_count
    · rw [if_pos hw] at hstep
      cases hstep
    · rw [if_neg hw] at hstep
      injection hstep with h'
      subst h'
      have hwin := F2 c hA
      refine SchedInv.mk ?_ ?_ ?_ ?_ ?_ ?_ <;> dsimp only
      · simpa using F1
      · intro c0 hc0
        rw [hA] at hc0
        injection hc0 with hc0
        subst hc0
        exact ⟨s3.frame_count, by omega, hwin.1, hwin.2⟩
      · intro e he'
        rcases List.mem_append.1 he' with he' | he'
        · obtain ⟨h1, h2, h3⟩ := F3 e he'
          exact ⟨by omega, h2, h3⟩
        · rw [List.mem_singleton] at he'
          subst he'
          exact ⟨by omega, hwin.1, hwin.2⟩
      · intro K hK
        rw [List.map_append, List.map_cons, List.map_nil] at hK
        rcases List.mem_append.1 hK with hK | hK
        · rcases F4 K hK with ⟨hlk, c0, hc0, hkey⟩ | ⟨t, ht, hpast⟩
          · exfalso
            rw [hA] at hc0
            injection hc0 with hc0
            subst hc0
            exact hk (hkey ▸ hlk)
          · exact Or.inr ⟨t, by omega, hpast⟩
        · rw [List.mem_singleton] at hK
          subst hK
          exact Or.inl ⟨rfl, c, hA, rfl⟩
      · rw [List.map_append, List.map_cons, List.map_nil, List.nodup_append]
        refine ⟨F5, List.nodup_singleton _, ?_⟩
        intro K hK hK'
        rw [List.mem_singleton] at hK'
        subst hK'
        rcases F4 _ hK with ⟨hlk, c0, hc0, hkey⟩ | ⟨t, ht, hpast⟩
        · rw [hA] at hc0
          injection hc0 with hc0
          subst hc0
          exact hk (hkey ▸ hlk)
        · have hmono := now64_mono fps ht
          have h2 := hwin.2
          have hpast' : c.end_ ≤ now64 fps t := hpast
          omega
      · exact F6
  · -- pre-start clear: impossible
    exact absurd (F2 c hA).1 (by omega)
  · -- cache hit, no-op
    rw [he] at hstep
    simp only [Bool.false_eq_true, if_false] at hstep
    by_cases hw : wfail s3.frame_count
    · rw [if_pos hw] at hstep
      cases hstep
    · rw [if_neg hw] at hstep
      injection hstep with h'
      subst h'
      refine SchedInv.mk ?_ ?_ ?_ ?_ ?_ ?_ <;> dsimp only
      · exact F1
      · intro c0 hc0
        exact ⟨s3.frame_count, by omega, (F2 c0 hc0).1, (F2 c0 hc0).2⟩
      · intro e he'
        obtain ⟨h1, h2, h3⟩ := F3 e he'
        exact ⟨by omega, h2, h3⟩
      · intro K hK
        rcases F4 K hK with ⟨hlk, c0, hc0, hkey⟩ | ⟨t, ht, hpast⟩
        · exact Or.inl ⟨hlk, c0, hc0, hkey⟩
        · exact Or.inr ⟨t, by omega, hpast⟩
      · exact F5
      · exact F6
  · -- idle clear
    rw [he] at hstep
    simp only [eq_self_iff_true, if_true] at hstep
    by_cases hw : wfail s3.frame_count
    · rw [if_pos hw] at hstep
      cases hstep
    · rw [if_neg hw] at hstep
      injection hstep with h'
      subst h'
      refine SchedInv.mk ?_ ?_ ?_ ?_ ?_ ?_ <;> dsimp only
      · simpa using F1
      · intro c0 hc0
        rw [hA] at hc0
        cases hc0
      · intro e he'
        obtain ⟨h1, h2, h3⟩ := F3 e he'
        exact ⟨by omega, h2, h3⟩
      · intro K hK
        rcases F4 K hK with ⟨hlk, c0, hc0, hkey⟩ | ⟨t, ht, hpast⟩
        · rw [hA] at hc0
          cases hc0
        · exact Or.inr ⟨t, by omega, hpast⟩
      · exact F5
      · exact F6
  · -- fully idle
    rw [he] at hstep
    simp only [Bool.false_eq_true, if_false] at hstep
    by_cases hw : wfail s3.frame_count
    · rw [if_pos hw] at hstep
      cases hstep
    · rw [if_neg hw] at hstep
      injection hstep with h'
      subst h'
      refine SchedInv.mk ?_ ?_ ?_ ?_ ?_ ?_ <;> dsimp only
      · exact F1
      · intro c0 hc0
        rw [hA] at hc0
        cases hc0
      · intro e he'
        obtain ⟨h1, h2, h3⟩ := F3 e he'
        exact ⟨by omega, h2, h3⟩
      · intro K hK
        rcases F4 K hK with ⟨hlk, c0, hc0, hkey⟩ | ⟨t, ht, hpast⟩
        · rw [hA] at hc0
          cases hc0
        · exact Or.inr ⟨t, by omega, hpast⟩
      · exact F5
      · exact F6


/-- With both slots empty and every logged key already past, one refill
step (whatever the input yields) preserves the scheduler invariant. -/
theorem SchedInv_refill {fps : Nat} {B : Backend} {wfail : Nat → Bool}
    {s2 s' : MachineState}
    (hA : s2.active_sub = none) (hQ : s2.queued_sub = none)
    (F3 : ∀ e ∈ s2.drawLog, e.2 < s2.frame_count ∧
      e.1.1 ≤ now64 fps e.2 ∧ now64 fps e.2 < e.1.2)
    (F4 : ∀ K ∈ s2.drawLog.map Prod.fst,
      ∃ t, t ≤ s2.frame_count ∧ K.2 ≤ now64 fps t)
    (F5 : (s2.drawLog.map Prod.fst).Nodup)
    (F6 : s2.preClears = 0)
    (hstep : (match ingestPhase (now64 fps s2.frame_count) s2 with
      | Sum.inr (sh, r) => StepRes.halted sh r
      | Sum.inl s3 => emitStep fps B wfail s3) = StepRes.next s') :
    SchedInv fps s' := by
  rcases ingest_cases (now64 fps s2.frame_count) s2 with
    ⟨_, _, _, hig⟩ | ⟨e0, rest, _, _, _, hig⟩ |
    ⟨line, rest, _, _, _, hp, hig⟩ |
    ⟨line, rest, sub, _, _, _, hp, hw1, hw2, hig⟩ |
    ⟨line, rest, sub, _, _, _, hp, hw, hig⟩ |
    ⟨c0, hnb, _, _, _, _, _⟩ | ⟨hnb, hig⟩
  · rw [hig] at hstep
    cases hstep
  · rw [hig] at hstep
    cases hstep
  · -- malformed line skipped
    rw [hig] at hstep
    refine SchedInv_emit ?_ ?_ ?_ ?_ ?_ ?_ hstep <;> dsimp only
    · simp [hA, hQ]
    · intro c0 hc0
      rw [hA] at hc0
      cases hc0
    · exact F3
    · intro K hK
      exact Or.inr (F4 K hK)
    · exact F5
    · exact F6
  · -- fresh cue promoted immediately
    rw [hig] at hstep
    refine SchedInv_emit ?_ ?_ ?_ ?_ ?_ ?_ hstep <;> dsimp only
    · simp
    · intro c0 hc0
      injection hc0 with hc0
      subst hc0
      exact ⟨hw1, hw2⟩
    · exact F3
    · intro K hK
      exact Or.inr (F4 K hK)
    · exact F5
    · exact F6
  · -- fresh cue queued
    rw [hig] at hstep
    refine SchedInv_emit ?_ ?_ ?_ ?_ ?_ ?_ hstep <;> dsimp only
    · simp [hA]
    · intro c0 hc0
      rw [hA] at hc0
      cases hc0
    · exact F3
    · intro K hK
      exact Or.inr (F4 K hK)
    · exact F5
    · exact F6
  · exact absurd ⟨hA, hQ⟩ hnb
  · exact absurd ⟨hA, hQ⟩ hnb

/-- One loop iteration preserves the scheduler invariant. -/
theorem SchedInv_step {fps : Nat} {B : Backend} {wfail : Nat → Bool}
    {s s' : MachineState} (hinv : SchedInv fps s)
    (hstep : step fps B wfail s = StepRes.next s') : SchedInv fps s' := by
  rw [step_decompose] at hstep
  rcases @sched_cases (now64 fps s.frame_count) s hinv.slots with
    ⟨c, hA, h1, heq⟩ | ⟨c, hA, h1, hQ, heq⟩ | ⟨hA, hQ, heq⟩ |
    ⟨c, hA, hQ, h1, heq⟩ | ⟨c, hA, hQ, h1, h2, heq⟩ | ⟨c, hA, hQ, h1, h2, heq⟩
  · -- active cue persists
    rw [heq] at hstep
    rcases ingest_cases (now64 fps s.frame_count) s with
      ⟨ha0, _, _, _⟩ | ⟨e0, rest, ha0, _, _, _⟩ |
      ⟨line, rest, ha0, _, _, _, _⟩ |
      ⟨line, rest, sub, ha0, _, _, _, _, _, _⟩ |
      ⟨line, rest, sub, ha0, _, _, _, _, _⟩ |
      ⟨c0, _, _, ha0, _, _, _⟩ | ⟨hnb, hig⟩
    · rw [hA] at ha0; cases ha0
    · rw [hA] at ha0; cases ha0
    · rw [hA] at ha0; cases ha0
    · rw [hA] at ha0; cases ha0
    · rw [hA] at ha0; cases ha0
    · rw [hA] at ha0; cases ha0
    · rw [hig] at hstep
      refine SchedInv_emit ?_ ?_ ?_ ?_ ?_ ?_ hstep
      · exact hinv.slots
      · intro c0 hc0
        rw [hA] at hc0
        injection hc0 with hc0
        subst hc0
        obtain ⟨t, ht, hs, _⟩ := hinv.activeWindow c hA
        have := now64_mono fps (Nat.le_of_lt ht)
        exact ⟨by omega, h1⟩
      · exact hinv.logWindow
      · intro K hK
        rcases hinv.logFresh K hK with hc | ⟨t, ht, hpast⟩
        · exact Or.inl hc
        · exact Or.inr ⟨t, by omega, hpast⟩
      · exact hinv.logNodup
      · exact hinv.noPre
  · -- active cue expired; refill
    rw [heq] at hstep
    refine SchedInv_refill (by simp) (by simpa using hQ) ?_ ?_ ?_ ?_ hstep <;>
      dsimp only
    · exact hinv.logWindow
    · intro K hK
      rcases hinv.logFresh K hK with ⟨hlk, c0, hc0, hkey⟩ | ⟨t, ht, hpast⟩
      · rw [hA] at hc0
        injection hc0 with hc0
        subst hc0
        refine ⟨s.frame_count, le_rfl, ?_⟩
        rw [← hkey]
        exact h1
      · exact ⟨t, by omega, hpast⟩
    · exact hinv.logNodup
    · exact hinv.noPre
  · -- both slots empty; refill
    rw [heq] at hstep
    refine SchedInv_refill hA hQ ?_ ?_ ?_ ?_ hstep
    · exact hinv.logWindow
    · intro K hK
      rcases hinv.logFresh K hK with ⟨hlk, c0, hc0, hkey⟩ | ⟨t, ht, hpast⟩
      · rw [hA] at hc0
        cases hc0
      · exact ⟨t, by omega, hpast⟩
    · exact hinv.logNodup
    · exact hinv.noPre
  · -- stale queued cue dropped; refill
    rw [heq] at hstep
    refine SchedInv_refill (by simpa using hA) (by simp) ?_ ?_ ?_ ?_ hstep <;>
      dsimp only
    · exact hinv.logWindow
    · intro K hK
      rcases hinv.logFresh K hK with ⟨hlk, c0, hc0, hkey⟩ | ⟨t, ht, hpast⟩
      · rw [hA] at hc0
        cases hc0
      · exact ⟨t, by omega, hpast⟩
    · exact hinv.logNodup
    · exact hinv.noPre
  · -- queued cue promoted
    rw [heq] at hstep
    rcases ingest_cases (now64 fps s.frame_count)
        { s with active_sub := some c, queued_sub := none } with
      ⟨ha0, _, _, _⟩ | ⟨e0, rest, ha0, _, _, _⟩ |
      ⟨line, rest, ha0, _, _, _, _⟩ |
      ⟨line, rest, sub, ha0, _, _, _, _, _, _⟩ |
      ⟨line, rest, sub, ha0, _, _, _, _, _⟩ |
      ⟨c0, _, _, ha0, _, _, _⟩ | ⟨hnb, hig⟩
    · cases ha0
    · cases ha0
    · cases ha0
    · cases ha0
    · cases ha0
    · cases ha0
    · rw [hig] at hstep
      refine SchedInv_emit ?_ ?_ ?_ ?_ ?_ ?_ hstep <;> dsimp only
      · simp
      · intro c0 hc0
        injection hc0 with hc0
        subst hc0
        exact ⟨h1, h2⟩
      · exact hinv.logWindow
      · intro K hK
        rcases hinv.logFresh K hK with ⟨hlk, c0, hc0, hkey⟩ | ⟨t, ht, hpast⟩
        · rw [hA] at hc0
          cases hc0
        · exact Or.inr ⟨t, by omega, hpast⟩
      · exact hinv.logNodup
      · exact hinv.noPre
  · -- queued cue still waiting
    rw [heq] at hstep
    rcases ingest_cases (now64 fps s.frame_count) s with
      ⟨_, hq0, _, _⟩ | ⟨e0, rest, _, hq0, _, _⟩ |
      ⟨line, rest, _, hq0, _, _, _⟩ |
      ⟨line, rest, sub, _, hq0, _, _, _, _, _⟩ |
      ⟨line, rest, sub, _, hq0, _, _, _, _⟩ |
      ⟨c0, _, hq0, _, hs0, _, _⟩ | ⟨hnb, hig⟩
    · rw [hQ] at hq0; cases hq0
    · rw [hQ] at hq0; cases hq0
    · rw [hQ] at hq0; cases hq0
    · rw [hQ] at hq0; cases hq0
    · rw [hQ] at hq0; cases hq0
    · rw [hQ] at hq0
      injection hq0 with hq0
      subst hq0
      omega
    · rw [hig] at hstep
      refine SchedInv_emit ?_ ?_ ?_ ?_ ?_ ?_ hstep
      · exact hinv.slots
      · intro c0 hc0
        rw [hA] at hc0
        cases hc0
      · exact hinv.logWindow
      · intro K hK
        rcases hinv.logFresh K hK with ⟨hlk, c0, hc0, hkey⟩ | ⟨t, ht, hpast⟩
        · rw [hA] at hc0
          cases hc0
        · exact Or.inr ⟨t, by omega, hpast⟩
      · exact hinv.logNodup
      · exact hinv.noPre


/-- When `emitStep` continues, the new state is the rendered state with the
buffer possibly refreshed from the surface, the frame appended, and the
counter bumped. -/
theorem emitStep_next_shape {fps : Nat} {B : Backend} {wfail : Nat → Bool}
    {s3 s' : MachineState} (h : emitStep fps B wfail s3 = StepRes.next s') :
    ∃ s5 : MachineState,
      (s5.pixel_buffer = s3.pixel_buffer ∨ s5.pixel_buffer = B.render s5.surface) ∧
      s5.output = s3.output ∧ s5.frame_count = s3.frame_count ∧
      s5.input = s3.input ∧ s5.skipped = s3.skipped ∧
      s' = { s5 with
        output := s5.output ++ [s5.pixel_buffer],
        frame_count := s5.frame_count + 1 } := by
  unfold emitStep at h
  dsimp only at h
  have hrf := renderPhase_fields (now64 fps s3.frame_count) s3
  by_cases hb : (renderPhase (now64 fps s3.frame_count) s3).2 = true
  · rw [if_pos hb] at h
    by_cases hw : wfail ({ (renderPhase (now64 fps s3.frame_count) s3).1 with
        pixel_buffer :=
          B.render (renderPhase (now64 fps s3.frame_count) s3).1.surface }).frame_count
    · rw [if_pos hw] at h
      cases h
    · rw [if_neg hw] at h
      injection h with h'
      subst h'
      refine ⟨_, Or.inr rfl, ?_, ?_, ?_, ?_, rfl⟩
      · exact hrf.2.2.2.2.2.1
      · exact hrf.1
      · exact hrf.2.2.2.2.1
      · exact hrf.2.2.2.2.2.2
  · rw [if_neg hb] at h
    by_cases hw : wfail (renderPhase (now64 fps s3.frame_count) s3).1.frame_count
    · rw [if_pos hw] at h
      cases h
    · rw [if_neg hw] at h
      injection h with h'
      subst h'
      refine ⟨_, Or.inl ?_, hrf.2.2.2.2.2.1, hrf.1, hrf.2.2.2.2.1,
        hrf.2.2.2.2.2.2, rfl⟩
      exact hrf.2.2.2.1

/-- When a tick continues, the new state extends the old output by exactly
one frame (the current buffer, possibly refreshed from the surface) and
bumps the frame counter by exactly one. -/
theorem step_next_shape {fps : Nat} {B : Backend} {wfail : Nat → Bool}
    {s s' : MachineState} (h : step fps B wfail s = StepRes.next s') :
    ∃ s5 : MachineState,
      (s5.pixel_buffer = s.pixel_buffer ∨ s5.pixel_buffer = B.render s5.surface) ∧
      s5.output = s.output ∧ s5.frame_count = s.frame_count ∧
      s' = { s5 with
        output := s5.output ++ [s5.pixel_buffer],
        frame_count := s5.frame_count + 1 } := by
  rw [step_decompose] at h
  rcases hig : ingestPhase (now64 fps s.frame_count)
      (promotePhase (now64 fps s.frame_count)
        (expirePhase (now64 fps s.frame_count) s)) with s3 | ⟨sh, r⟩
  · rw [hig] at h
    obtain ⟨s5, hpix, hout, hfc, _, _, hrec⟩ := emitStep_next_shape h
    have hef := expirePhase_fields (now64 fps s.frame_count) s
    have hpf := promotePhase_fields (now64 fps s.frame_count)
      (expirePhase (now64 fps s.frame_count) s)
    have hif := ingestPhase_inl_fields hig
    refine ⟨s5, ?_, ?_, ?_, hrec⟩
    · rcases hpix with hp | hp
      · exact Or.inl (by rw [hp, hif.2.2.2.2.1, hpf.2.2.2.2.1, hef.2.2.2.2.2.1])
      · exact Or.inr hp
    · rw [hout, hif.2.2.2.2.2.1, hpf.2.2.2.2.2.2.1, hef.2.2.2.2.2.2.2.1]
    · rw [hfc, hif.1, hpf.1, hef.1]
  · rw [hig] at h
    cases h

/-- One loop iteration preserves the emission invariant. -/
theorem EmitInv_step {fps wh : Nat} {B : Backend} {wfail : Nat → Bool}
    {s s' : MachineState} (hB : ∀ st, (B.render st).length = wh)
    (hinv : EmitInv wh s) (hstep : step fps B wfail s = StepRes.next s') :
    EmitInv wh s' := by
  obtain ⟨s5, hpix, hout, hfc, rfl⟩ := step_next_shape hstep
  have hblen : s5.pixel_buffer.length = wh := by
    rcases hpix with hp | hp
    · rw [hp]
      exact hinv.bufLen
    · rw [hp]
      exact hB _
  refine ⟨?_, ?_, ?_, ?_⟩ <;> dsimp only
  · rw [List.length_append, hout, hinv.outCount, hfc]
    simp
  · intro _
    rw [List.getLast?_concat]
  · exact hblen
  · intro fr hfr
    rcases List.mem_append.1 hfr with hfr | hfr
    · exact hinv.outLen fr (hout ▸ hfr)
    · rw [List.mem_singleton] at hfr
      subst hfr
      exact hblen

/-- The scheduler invariant holds initially. -/
theorem SchedInv_init (cfg : Config) (input : List (Except Unit (List Char))) :
    SchedInv cfg.fps (initState cfg input) := by
  refine ⟨?_, ?_, ?_, ?_, ?_, ?_⟩ <;> simp [initState]

/-- The emission invariant holds initially. -/
theorem EmitInv_init (cfg : Config) (input : List (Except Unit (List Char))) :
    EmitInv (cfg.height * (cfg.width * 4)) (initState cfg input) := by
  refine ⟨?_, ?_, ?_, ?_⟩ <;> simp [initState]

/-- Every reachable loop state satisfies the scheduler invariant. -/
theorem Reach_SchedInv {cfg : Config} {B : Backend} {wfail : Nat → Bool}
    {input : List (Except Unit (List Char))} {s : MachineState}
    (h : Reach cfg B wfail input s) : SchedInv cfg.fps s := by
  induction h with
  | init => exact SchedInv_init cfg input
  | next _ hstep ih => exact SchedInv_step ih hstep

/-- Every reachable loop state satisfies the emission invariant. -/
theorem Reach_EmitInv {cfg : Config} {B : Backend} {wfail : Nat → Bool}
    {input : List (Except Unit (List Char))} {s : MachineState}
    (hB : ∀ st, (B.render st).length = cfg.height * (cfg.width * 4))
    (h : Reach cfg B wfail input s) :
    EmitInv (cfg.height * (cfg.width * 4)) s := by
  induction h with
  | init => exact EmitInv_init cfg input
  | next _ hstep ih => exact EmitInv_step hB ih hstep

/-! ## The claims -/

/-- C2: a cue whose `end <= start`, and a cue whose window fully elapsed
before promotion, is never rendered — every recorded draw happened at a
tick strictly inside the drawn cue's window (hence with `start < end`);
and at the promotion check a queued cue with `now >= queued.end` is
discarded without touching the draw log. -/
theorem claim_C2 (cfg : Config) (B : Backend) (wfail : Nat → Bool)
    (input : List (Except Unit (List Char))) :
    (∀ s, Reach cfg B wfail input s → ∀ e ∈ s.drawLog,
      e.1.1 ≤ now64 cfg.fps e.2 ∧ now64 cfg.fps e.2 < e.1.2 ∧ e.1.1 < e.1.2) ∧
    (∀ (now : Nat) (s : MachineState) (c : Subtitle), s.active_sub = none →
      s.queued_sub = some c → c.end_ ≤ now →
      promotePhase now s = { s with queued_sub := none } ∧
      (promotePhase now s).drawLog = s.drawLog) := by
  constructor
  · intro s hs e he
    have h := (Reach_SchedInv hs).logWindow e he
    exact ⟨h.2.1, h.2.2, by omega⟩
  · intro now s c hA hQ hend
    constructor
    · simp [promotePhase, hA, hQ, Nat.not_lt.2 hend]
    · simp [promotePhase, hA, hQ, Nat.not_lt.2 hend]

/-- C2 witness. -/
theorem claim_C2_witness :
    (initState cfg0 inp0).drawLog = [] ∧
    promotePhase 5000 { initState cfg0 inp0 with
      queued_sub := some { start := 1000, end_ := 3000, lines := [] } } =
      { initState cfg0 inp0 with queued_sub := none } := by
  refine ⟨rfl, ?_⟩
  have h := ((claim_C2 cfg0 B0 (fun _ => false) inp0).2 5000
    { initState cfg0 inp0 with
      queued_sub := some { start := 1000, end_ := 3000, lines := [] } }
    { start := 1000, end_ := 3000, lines := [] } rfl rfl (by decide)).1
  simpa using h

/-- C3: the redraw path runs at most once per distinct `(start, end)` key
over a whole run, and on a tick where the active cue's key equals the
render cache key the draw function is not invoked. -/
theorem claim_C3 (cfg : Config) (B : Backend) (wfail : Nat → Bool)
    (input : List (Except Unit (List Char))) :
    (∀ s, Reach cfg B wfail input s → (s.drawLog.map Prod.fst).Nodup) ∧
    (∀ (now : Nat) (s : MachineState) (c : Subtitle), s.active_sub = some c →
      s.last_rendered_key = some (c.start, c.end_) →
      (renderPhase now s).1.drawLog = s.drawLog) := by
  constructor
  · intro s hs
    exact (Reach_SchedInv hs).logNodup
  · intro now s c hA hk
    simp only [renderPhase, hA]
    rw [if_neg (by simp [hk])]
    split_ifs <;> simp

/-- C3 witness. -/
theorem claim_C3_witness :
    ((initState cfg0 inp0).drawLog.map Prod.fst).Nodup :=
  (claim_C3 cfg0 B0 (fun _ => false) inp0).1 _ Reach.init

/-- C9: the active and queued slots are never both occupied — in any
reachable state, and the scheduler phases preserve this exclusivity at
every intermediate observation point. -/
theorem claim_C9 (cfg : Config) (B : Backend) (wfail : Nat → Bool)
    (input : List (Except Unit (List Char))) :
    (∀ s, Reach cfg B wfail input s →
      ¬(s.active_sub.isSome ∧ s.queued_sub.isSome)) ∧
    (∀ (now : Nat) (s : MachineState),
      ¬(s.active_sub.isSome ∧ s.queued_sub.isSome) →
      ¬((promotePhase now (expirePhase now s)).active_sub.isSome ∧
        (promotePhase now (expirePhase now s)).queued_sub.isSome)) ∧
    (∀ (now : Nat) (s s3 : MachineState),
      ¬(s.active_sub.isSome ∧ s.queued_sub.isSome) →
      ingestPhase now s = Sum.inl s3 →
      ¬(s3.active_sub.isSome ∧ s3.queued_sub.isSome)) := by
  refine ⟨?_, ?_, ?_⟩
  · intro s hs
    exact (Reach_SchedInv hs).slots
  · intro now s hx
    rcases @sched_cases now s hx with
      ⟨c, hA, h1, heq⟩ | ⟨c, hA, h1, hQ, heq⟩ | ⟨hA, hQ, heq⟩ |
      ⟨c, hA, hQ, h1, heq⟩ | ⟨c, hA, hQ, h1, h2, heq⟩ | ⟨c, hA, hQ, h1, h2, heq⟩ <;>
      rw [heq] <;> simp_all
  · intro now s s3 hx hig
    rcases ingest_cases now s with
      ⟨hA, hQ, _, he⟩ | ⟨e0, rest, hA, hQ, _, he⟩ |
      ⟨line, rest, hA, hQ, _, _, he⟩ |
      ⟨line, rest, sub, hA, hQ, _, _, _, _, he⟩ |
      ⟨line, rest, sub, hA, hQ, _, _, _, he⟩ |
      ⟨c0, _, hQ, hA, _, _, he⟩ | ⟨_, he⟩ <;>
      rw [he] at hig <;> first
        | (injection hig with hig; subst hig; simp_all)
        | cases hig

/-- C9 witness. -/
theorem claim_C9_witness :
    ¬((initState cfg0 inp0).active_sub.isSome ∧
      (initState cfg0 inp0).queued_sub.isSome) :=
  (claim_C9 cfg0 B0 (fun _ => false) inp0).1 _ Reach.init

/-- C10: the defensive pre-start clear branch is never executed: the
counter instrumenting it stays `0` in every reachable state, because
whenever a cue is active the virtual time has already reached its start. -/
theorem claim_C10 (cfg : Config) (B : Backend) (wfail : Nat → Bool)
    (input : List (Except Unit (List Char))) :
    (∀ s, Reach cfg B wfail input s → s.preClears = 0) ∧
    (∀ s, Reach cfg B wfail input s → ∀ c, s.active_sub = some c →
      c.start ≤ now64 cfg.fps s.frame_count) := by
  constructor
  · intro s hs
    exact (Reach_SchedInv hs).noPre
  · intro s hs c hA
    obtain ⟨t, ht, hstart, _⟩ := (Reach_SchedInv hs).activeWindow c hA
    have := now64_mono cfg.fps (Nat.le_of_lt ht)
    omega

/-- C10 witness. -/
theorem claim_C10_witness : (initState cfg0 inp0).preClears = 0 :=
  (claim_C10 cfg0 B0 (fun _ => false) inp0).1 _ Reach.init

/-- C4, amended: the virtual clock is the binary64 computation
`(f as f64 * (1000.0 / fps as f64)) as u64` (modelled exactly by `now64`);
it is nondecreasing in the tick index, the frame counter advances by
exactly one per completed iteration, and the clock agrees with
`floor(f * 1000 / fps)` whenever `fps` divides `1000` and the product is
below `2^53` — but not in general (at `fps = 19`, `f = 19` it yields
`999` while `floor(19 * 1000 / 19) = 1000`). -/
theorem claim_C4 :
    (∀ fps f : Nat, now64 fps f ≤ now64 fps (f + 1)) ∧
    (∀ (fps : Nat) (B : Backend) (wfail : Nat → Bool) (s s' : MachineState),
      step fps B wfail s = StepRes.next s' →
      s'.frame_count = s.frame_count + 1) ∧
    (∀ fps f : Nat, 0 < fps → fps ∣ 1000 → f * (1000 / fps) < 2 ^ 53 →
      now64 fps f = f * 1000 / fps) ∧
    now64 19 19 = 999 ∧ 19 * 1000 / 19 = 1000 := by
  refine ⟨?_, ?_, ?_, by decide, by decide⟩
  · intro fps f
    exact now64_mono fps (Nat.le_succ f)
  · intro fps B wfail s s' h
    obtain ⟨s5, _, _, hfc, rfl⟩ := step_next_shape h
    simpa using hfc
  · intro fps f h1 h2 h3
    exact now64_exact h1 h2 h3

/-- C4 witness. -/
theorem claim_C4_witness : now64 25 7 = 280 := by
  have h := claim_C4.2.2.1 25 7 (by decide) (by decide) (by decide)
  simpa using h

/-- C4 counterexample to the claim as stated: the clock at `fps = 19`,
`f = 19` is not `floor(f * 1000 / fps)`. -/
theorem claim_C4_counterexample : now64 19 19 ≠ 19 * 1000 / 19 := by decide

/-- A tick whose render phase requested no readback left the state
untouched. -/
theorem renderPhase_noop {now : Nat} {s : MachineState}
    (h : (renderPhase now s).2 = false) : renderPhase now s = (s, false) := by
  rcases render_cases now s with
    ⟨c, _, _, he⟩ | ⟨c, _, _, _, _, he⟩ | ⟨c, _, _, _, he⟩ | ⟨_, _, he⟩ |
    ⟨_, _, he⟩ <;> rw [he] <;> rw [he] at h <;> first | rfl | cases h

/-- The write test decides whether `emitStep` continues or halts. -/
theorem emitStep_wfail (fps : Nat) (B : Backend) (wfail : Nat → Bool)
    (s3 : MachineState) :
    (wfail s3.frame_count = true →
      ∃ s'', emitStep fps B wfail s3 = StepRes.halted s'' ExitReason.writeErr) ∧
    (wfail s3.frame_count = false →
      ∃ s', emitStep fps B wfail s3 = StepRes.next s') := by
  unfold emitStep
  dsimp only
  have hfc : (if (renderPhase (now64 fps s3.frame_count) s3).2 = true then
      { (renderPhase (now64 fps s3.frame_count) s3).1 with
        pixel_buffer :=
          B.render (renderPhase (now64 fps s3.frame_count) s3).1.surface }
    else (renderPhase (now64 fps s3.frame_count) s3).1).frame_count =
      s3.frame_count := by
    split_ifs <;> exact (renderPhase_fields (now64 fps s3.frame_count) s3).1
  rw [hfc]
  constructor
  · intro hw
    rw [if_pos hw]
    exact ⟨_, rfl⟩
  · intro hw
    rw [if_neg (by simp [hw])]
    exact ⟨_, rfl⟩

/-- C6: every completed iteration writes the pixel buffer to the sink
exactly once (one frame of exactly `width * height * 4` bytes per tick,
so frames emitted = ticks executed), and a no-op tick re-emits
byte-for-byte the buffer left by the previous tick. -/
theorem claim_C6 (cfg : Config) (B : Backend) (wfail : Nat → Bool)
    (input : List (Except Unit (List Char)))
    (hB : ∀ st, (B.render st).length = cfg.width * cfg.height * 4) :
    (∀ s s' : MachineState, step cfg.fps B wfail s = StepRes.next s' →
      s'.frame_count = s.frame_count + 1 ∧
      s'.output.length = s.output.length + 1) ∧
    (∀ s, Reach cfg B wfail input s →
      s.output.length = s.frame_count ∧
      (∀ fr ∈ s.output, fr.length = cfg.width * cfg.height * 4) ∧
      (s.output ≠ [] → s.output.getLast? = some s.pixel_buffer)) ∧
    (∀ s3 s' : MachineState,
      (renderPhase (now64 cfg.fps s3.frame_count) s3).2 = false →
      emitStep cfg.fps B wfail s3 = StepRes.next s' →
      s'.output = s3.output ++ [s3.pixel_buffer] ∧
      s'.pixel_buffer = s3.pixel_buffer) := by
  have hB' : ∀ st, (B.render st).length = cfg.height * (cfg.width * 4) := by
    intro st
    rw [hB st]
    ring
  refine ⟨?_, ?_, ?_⟩
  · intro s s' h
    obtain ⟨s5, _, hout, hfc, rfl⟩ := step_next_shape h
    constructor
    · simpa using hfc
    · simp [hout]
  · intro s hs
    have h := Reach_EmitInv hB' hs
    refine ⟨h.outCount, ?_, h.outLast⟩
    intro fr hfr
    rw [h.outLen fr hfr]
    ring
  · intro s3 s' hnr h
    unfold emitStep at h
    dsimp only at h
    rw [renderPhase_noop hnr] at h
    simp only [Bool.false_eq_true, if_false] at h
    by_cases hw : wfail s3.frame_count
    · rw [if_pos hw] at h
      cases h
    · rw [if_neg (by simp [hw])] at h
      injection h with h'
      subst h'
      exact ⟨rfl, rfl⟩

/-- C6 witness. -/
theorem claim_C6_witness :
    (initState cfg0 inp0).output.length = (initState cfg0 inp0).frame_count :=
  ((claim_C6 cfg0 B0 (fun _ => false) inp0
    (fun st => by
      cases st <;>
        · show (List.replicate (cfg0.height * (cfg0.width * 4)) _).length = _
          rw [List.length_replicate]
          norm_num [cfg0])).2.1
    _ Reach.init).1

/-- C7: the tick loop exits exactly when the input is exhausted or errors
while both slots are empty after the scheduler phases, or the write of
the frame fails; a malformed input line never terminates the loop — it is
recorded as skipped, the line is consumed, and the loop continues. -/
theorem claim_C7 (fps : Nat) (B : Backend) (wfail : Nat → Bool)
    (s : MachineState) :
    ((∃ s'' r, step fps B wfail s = StepRes.halted s'' r) ↔
      ((promotePhase (now64 fps s.frame_count)
          (expirePhase (now64 fps s.frame_count) s)).active_sub = none ∧
        (promotePhase (now64 fps s.frame_count)
          (expirePhase (now64 fps s.frame_count) s)).queued_sub = none ∧
        (s.input = [] ∨ ∃ e rest, s.input = Except.error e :: rest)) ∨
      wfail s.frame_count = true) ∧
    (∀ line rest,
      (promotePhase (now64 fps s.frame_count)
        (expirePhase (now64 fps s.frame_count) s)).active_sub = none →
      (promotePhase (now64 fps s.frame_count)
        (expirePhase (now64 fps s.frame_count) s)).queued_sub = none →
      s.input = Except.ok line :: rest → parse_line line = none →
      wfail s.frame_count = false →
      ∃ s', step fps B wfail s = StepRes.next s' ∧
        s'.skipped = s.skipped ++ [line] ∧ s'.input = rest) := by
  have hef := expirePhase_fields (now64 fps s.frame_count) s
  have hpf := promotePhase_fields (now64 fps s.frame_count)
    (expirePhase (now64 fps s.frame_count) s)
  have hin : (promotePhase (now64 fps s.frame_count)
      (expirePhase (now64 fps s.frame_count) s)).input = s.input := by
    rw [hpf.2.2.2.2.2.1, hef.2.2.2.2.2.2.1]
  have hsk : (promotePhase (now64 fps s.frame_count)
      (expirePhase (now64 fps s.frame_count) s)).skipped = s.skipped := by
    rw [hpf.2.2.2.2.2.2.2.2.1, hef.2.2.2.2.2.2.2.2.2.1]
  have hfc2 : (promotePhase (now64 fps s.frame_count)
      (expirePhase (now64 fps s.frame_count) s)).frame_count = s.frame_count := by
    rw [hpf.1, hef.1]
  constructor
  · constructor
    · rintro ⟨s'', r, h⟩
      rw [step_decompose] at h
      rcases hig : ingestPhase (now64 fps s.frame_count)
          (promotePhase (now64 fps s.frame_count)
            (expirePhase (now64 fps s.frame_count) s)) with s3 | ⟨sh, r'⟩
      · rw [hig] at h
        right
        by_cases hw : wfail s.frame_count
        · exact hw
        · exfalso
          have hfc3 : s3.frame_count = s.frame_count := by
            rw [(ingestPhase_inl_fields hig).1, hfc2]
          obtain ⟨s4, hnext⟩ := (emitStep_wfail fps B wfail s3).2
            (by rw [hfc3]; simpa using hw)
          have h' : emitStep fps B wfail s3 = StepRes.halted s'' r := h
          rw [hnext] at h'
          cases h'
      · left
        rcases ingest_cases (now64 fps s.frame_count)
            (promotePhase (now64 fps s.frame_count)
              (expirePhase (now64 fps s.frame_count) s)) with
          ⟨hA2, hQ2, hi2, he⟩ | ⟨e0, rest, hA2, hQ2, hi2, he⟩ |
          ⟨line, rest, _, _, _, _, he⟩ |
          ⟨line, rest, sub, _, _, _, _, _, _, he⟩ |
          ⟨line, rest, sub, _, _, _, _, _, he⟩ |
          ⟨c0, _, _, _, _, _, he⟩ | ⟨_, he⟩ <;> rw [he] at hig
        · exact ⟨hA2, hQ2, Or.inl (hin ▸ hi2)⟩
        · exact ⟨hA2, hQ2, Or.inr ⟨e0, rest, hin ▸ hi2⟩⟩
        · cases hig
        · cases hig
        · cases hig
        · cases hig
        · cases hig
    · intro h
      rw [step_decompose]
      rcases h with ⟨hA2, hQ2, hinp⟩ | hw
      · rcases hinp with hinp | ⟨e0, rest, hinp⟩
        · have he : ingestPhase (now64 fps s.frame_count)
              (promotePhase (now64 fps s.frame_count)
                (expirePhase (now64 fps s.frame_count) s)) =
              Sum.inr (promotePhase (now64 fps s.frame_count)
                (expirePhase (now64 fps s.frame_count) s), ExitReason.eof) := by
            simp [ingestPhase, hA2, hQ2, hin, hinp]
          rw [he]
          exact ⟨_, _, rfl⟩
        · have he : ingestPhase (now64 fps s.frame_count)
              (promotePhase (now64 fps s.frame_count)
                (expirePhase (now64 fps s.frame_count) s)) =
              Sum.inr ({ promotePhase (now64 fps s.frame_count)
                  (expirePhase (now64 fps s.frame_count) s) with input := rest },
                ExitReason.readErr) := by
            simp [ingestPhase, hA2, hQ2, hin, hinp]
          rw [he]
          exact ⟨_, _, rfl⟩
      · rcases hig : ingestPhase (now64 fps s.frame_count)
            (promotePhase (now64 fps s.frame_count)
              (expirePhase (now64 fps s.frame_count) s)) with s3 | ⟨sh, r'⟩
        · have hfc3 : s3.frame_count = s.frame_count := by
            rw [(ingestPhase_inl_fields hig).1, hfc2]
          obtain ⟨s4, hhalt⟩ := (emitStep_wfail fps B wfail s3).1
            (by rw [hfc3]; exact hw)
          exact ⟨s4, ExitReason.writeErr, hhalt⟩
        · exact ⟨_, _, rfl⟩
  · intro line rest hA2 hQ2 hinp hp hw
    have hi2 : (promotePhase (now64 fps s.frame_count)
        (expirePhase (now64 fps s.frame_count) s)).input =
        Except.ok line :: rest := by rw [hin, hinp]
    have hig : ingestPhase (now64 fps s.frame_count)
        (promotePhase (now64 fps s.frame_count)
          (expirePhase (now64 fps s.frame_count) s)) =
        Sum.inl { promotePhase (now64 fps s.frame_count)
            (expirePhase (now64 fps s.frame_count) s) with
          input := rest,
          skipped := (promotePhase (now64 fps s.frame_count)
            (expirePhase (now64 fps s.frame_count) s)).skipped ++ [line] } := by
      simp [ingestPhase, hA2, hQ2, hi2, hp]
    obtain ⟨s', hnext⟩ := (emitStep_wfail fps B wfail
      { promotePhase (now64 fps s.frame_count)
          (expirePhase (now64 fps s.frame_count) s) with
        input := rest,
        skipped := (promotePhase (now64 fps s.frame_count)
          (expirePhase (now64 fps s.frame_count) s)).skipped ++ [line] }).2
      (by simpa [hfc2] using hw)
    refine ⟨s', ?_, ?_, ?_⟩
    · rw [step_decompose, hig]
      exact hnext
    · obtain ⟨s5, _, _, _, _, hskip5, rfl⟩ := emitStep_next_shape hnext
      simpa [hsk] using hskip5
    · obtain ⟨s5, _, _, _, hinp5, _, rfl⟩ := emitStep_next_shape hnext
      simpa using hinp5

/-- C7 witness. -/
theorem claim_C7_witness :
    ∃ s', step cfg1.fps B1 (fun _ => false)
        (initState cfg1 [Except.ok ("bad".toList)]) = StepRes.next s' ∧
      s'.skipped = (initState cfg1 [Except.ok ("bad".toList)]).skipped ++
        ["bad".toList] ∧ s'.input = [] := by
  have h := (claim_C7 cfg1.fps B1 (fun _ => false)
    (initState cfg1 [Except.ok ("bad".toList)])).2
    ("bad".toList) [] (by decide) (by decide) rfl (by decide) rfl
  simpa using h

/-- C5: the cue parser returns malformed (`none`) iff the tab-split of the
line yields fewer than three fields or the first or second field fails
`u64` parsing; on success the cue's timestamps are the two parsed fields
and its lines are exactly the third field split at every triple-space
occurrence, in order. -/
theorem claim_C5 (line : List Char) :
    (parse_line line = none ↔
      (splitChar '\t' line).length < 3 ∨
      parseU64 ((splitChar '\t' line)[0]!) = none ∨
      parseU64 ((splitChar '\t' line)[1]!) = none) ∧
    (∀ sub, parse_line line = some sub →
      parseU64 ((splitChar '\t' line)[0]!) = some sub.start ∧
      parseU64 ((splitChar '\t' line)[1]!) = some sub.end_ ∧
      sub.lines = splitTripleSpace ((splitChar '\t' line)[2]!)) := by
  unfold parse_line
  by_cases hl : (splitChar '\t' line).length < 3
  · simp [hl]
  · rcases h0 : parseU64 ((splitChar '\t' line)[0]!) with _ | a
    · simp [hl, h0, Option.bind]
    · rcases h1 : parseU64 ((splitChar '\t' line)[1]!) with _ | b
      · simp [hl, h0, h1, Option.bind]
      · simp only [hl, if_false, Option.bind_eq_bind, h0, Option.some_bind, h1]
        constructor
        · simp
        · rintro sub h
          injection h with h
          subst h
          exact ⟨rfl, rfl, rfl⟩

/-- C5 witness. -/
theorem claim_C5_witness :
    parse_line ("ab".toList) = none ∧
    (Subtitle.mk 12 34 ["ab".toList, "cd".toList]).lines =
      splitTripleSpace ((splitChar '\t' ("12\t34\tab   cd".toList))[2]!) :=
  ⟨(claim_C5 ("ab".toList)).1.mpr (Or.inl (by decide)),
   ((claim_C5 ("12\t34\tab   cd".toList)).2
     (Subtitle.mk 12 34 ["ab".toList, "cd".toList]) (by decide)).2.2⟩

/-- A fold that appends two per-element chunks to an accumulator equals
the accumulator followed by the joined per-element chunks. -/
theorem foldl_emit_join {α β : Type} (g h : α → List β) (l : List α) :
    ∀ acc : List β,
      l.foldl (fun ops p => ops ++ g p ++ h p) acc =
        acc ++ (l.map (fun p => g p ++ h p)).join := by
  induction l with
  | nil => intro acc; simp
  | cons a l ih =>
    intro acc
    simp only [List.foldl_cons, List.map_cons, List.join]
    rw [ih]
    simp [List.append_assoc]

/-- Membership in such a fold comes from the accumulator or from one of
the per-element chunks. -/
theorem foldl_emit_mem {α β : Type} (g h : α → List β) (l : List α)
    (acc : List β) (x : β)
    (hmem : x ∈ l.foldl (fun ops p => ops ++ g p ++ h p) acc) :
    x ∈ acc ∨ ∃ p ∈ l, x ∈ g p ∨ x ∈ h p := by
  rw [foldl_emit_join g h l acc] at hmem
  rcases List.mem_append.1 hmem with hx | hx
  · exact Or.inl hx
  · obtain ⟨s, hs, hxs⟩ := List.mem_join.1 hx
    obtain ⟨p, hp, rfl⟩ := List.mem_map.1 hs
    exact Or.inr ⟨p, hp, List.mem_append.1 hxs⟩

/-- C8: one redraw issues a clear and then, per authored line `i` of `n`
(in order), an optional shadow draw followed by the white foreground draw
at `x = (width - measured) / 2`,
`y = baseline - (n - 1 - i) * (spacing * multiplier)`, the shadow offset
by `distance * cos/sin (toRadians angle)`; the shadow draw is present iff
the shadow opacity is positive, so with opacity `≤ 0` no shadow draw is
issued regardless of distance or blur. -/
theorem claim_C8 (cfg : Config) (F : FontOps) (T : TrigOps) (sub : Subtitle) :
    draw_subtitle cfg F T sub =
      CanvasOp.clearOp ::
        (sub.lines.enum.map (fun p =>
          (if 0 < cfg.shadow_opacity then
            [CanvasOp.drawStr p.2
              (((cfg.width : ℚ) - F.measure p.2) / 2 +
                cfg.shadow_distance * T.cosine (T.toRadians cfg.shadow_angle))
              ((cfg.baseline : ℚ) -
                  ((sub.lines.length - 1 - p.1 : Nat) : ℚ) *
                    (F.spacing * cfg.line_height_multiplier) +
                cfg.shadow_distance * T.sine (T.toRadians cfg.shadow_angle))
              (TextPaint.shadow (min (⌊cfg.shadow_opacity * 255⌋.toNat) 255)
                (if 0 < cfg.shadow_blur then some (cfg.shadow_blur / 2)
                  else none))]
          else []) ++
          [CanvasOp.drawStr p.2 (((cfg.width : ℚ) - F.measure p.2) / 2)
            ((cfg.baseline : ℚ) -
              ((sub.lines.length - 1 - p.1 : Nat) : ℚ) *
                (F.spacing * cfg.line_height_multiplier))
            TextPaint.whiteFg])).join ∧
    (cfg.shadow_opacity ≤ 0 → ∀ t x y a b,
      CanvasOp.drawStr t x y (TextPaint.shadow a b) ∉
        draw_subtitle cfg F T sub) := by
  constructor
  · exact foldl_emit_join
      (fun p => if 0 < cfg.shadow_opacity then
        [CanvasOp.drawStr p.2
          (((cfg.width : ℚ) - F.measure p.2) / 2 +
            cfg.shadow_distance * T.cosine (T.toRadians cfg.shadow_angle))
          ((cfg.baseline : ℚ) -
              ((sub.lines.length - 1 - p.1 : Nat) : ℚ) *
                (F.spacing * cfg.line_height_multiplier) +
            cfg.shadow_distance * T.sine (T.toRadians cfg.shadow_angle))
          (TextPaint.shadow (min (⌊cfg.shadow_opacity * 255⌋.toNat) 255)
            (if 0 < cfg.shadow_blur then some (cfg.shadow_blur / 2)
              else none))]
        else [])
      (fun p => [CanvasOp.drawStr p.2 (((cfg.width : ℚ) - F.measure p.2) / 2)
        ((cfg.baseline : ℚ) -
          ((sub.lines.length - 1 - p.1 : Nat) : ℚ) *
            (F.spacing * cfg.line_height_multiplier))
        TextPaint.whiteFg])
      sub.lines.enum [CanvasOp.clearOp]
  · intro hop t x y a b hmem
    rcases foldl_emit_mem
        (fun p => if 0 < cfg.shadow_opacity then
          [CanvasOp.drawStr p.2
            (((cfg.width : ℚ) - F.measure p.2) / 2 +
              cfg.shadow_distance * T.cosine (T.toRadians cfg.shadow_angle))
            ((cfg.baseline : ℚ) -
                ((sub.lines.length - 1 - p.1 : Nat) : ℚ) *
                  (F.spacing * cfg.line_height_multiplier) +
              cfg.shadow_distance * T.sine (T.toRadians cfg.shadow_angle))
            (TextPaint.shadow (min (⌊cfg.shadow_opacity * 255⌋.toNat) 255)
              (if 0 < cfg.shadow_blur then some (cfg.shadow_blur / 2)
                else none))]
          else [])
        (fun p => [CanvasOp.drawStr p.2 (((cfg.width : ℚ) - F.measure p.2) / 2)
          ((cfg.baseline : ℚ) -
            ((sub.lines.length - 1 - p.1 : Nat) : ℚ) *
              (F.spacing * cfg.line_height_multiplier))
          TextPaint.whiteFg])
        sub.lines.enum [CanvasOp.clearOp] _ hmem with
      hx | ⟨p, _, hx | hx⟩
    · exact CanvasOp.noConfusion (List.mem_singleton.1 hx)
    · rw [if_neg (not_lt.mpr hop)] at hx
      exact absurd hx (List.not_mem_nil _)
    · simp at hx

/-- C8 witness. -/
theorem claim_C8_witness :
    CanvasOp.drawStr (['a']) 3 4 (TextPaint.shadow 0 none) ∉
      draw_subtitle cfgNoShadow fontW trigW
        (Subtitle.mk 0 1000 [['a'], ['b', 'c']]) :=
  (claim_C8 cfgNoShadow fontW trigW
      (Subtitle.mk 0 1000 [['a'], ['b', 'c']])).2
    (le_of_eq rfl) (['a']) 3 4 0 none

/-- At tick `0` the virtual clock reads `0`. -/
theorem now64_zero (fps : Nat) : now64 fps 0 = 0 := by
  simp [now64, RNnd]

/-- Walking a sorted chain: the head's end bounds every later start. -/
theorem chain_head_le :
    ∀ (l : List Subtitle) (x : Subtitle),
      List.Chain (fun u v => u.end_ ≤ v.start) x l →
      (∀ c ∈ l, c.start < c.end_) →
      ∀ b ∈ l, x.end_ ≤ b.start := by
  intro l
  induction l with
  | nil => intro x _ _ b hb; cases hb
  | cons y l ih =>
    intro x hch hse b hb
    rw [List.chain_cons] at hch
    rcases List.mem_cons.1 hb with rfl | hb
    · exact hch.1
    · have h2 := ih y hch.2 (fun c hc => hse c (List.mem_cons_of_mem _ hc)) b hb
      have h3 : y.start < y.end_ := hse y (List.mem_cons_self y l)
      omega

/-- A sorted chain of nonempty windows is pairwise sorted. -/
theorem chain_pairwise {cues : List Subtitle}
    (hch : List.Chain' (fun u v => u.end_ ≤ v.start) cues)
    (hse : ∀ c ∈ cues, c.start < c.end_) :
    List.Pairwise (fun u v => u.end_ ≤ v.start) cues := by
  induction cues with
  | nil => exact List.Pairwise.nil
  | cons a l ih =>
    have hch' : List.Chain (fun u v => u.end_ ≤ v.start) a l := hch
    refine List.Pairwise.cons ?_
      (ih hch.tail (fun c hc => hse c (List.mem_cons_of_mem _ hc)))
    exact chain_head_le l a hch'
      (fun c hc => hse c (List.mem_cons_of_mem _ hc))

/-- In a sorted schedule of nonempty windows, an earlier cue ends no later
than a later cue starts. -/
theorem cuesPast {cues : List Subtitle}
    (hch : List.Chain' (fun u v => u.end_ ≤ v.start) cues)
    (hse : ∀ c ∈ cues, c.start < c.end_)
    {i i' : Nat} {a b : Subtitle} (hii : i < i')
    (ha : cues[i]? = some a) (hb : cues[i']? = some b) :
    a.end_ ≤ b.start := by
  have hp := chain_pairwise hch hse
  rw [List.pairwise_iff_getElem] at hp
  obtain ⟨hi, hae⟩ := List.getElem?_eq_some_iff.1 ha
  obtain ⟨hi', hbe⟩ := List.getElem?_eq_some_iff.1 hb
  have h := hp i i' hi hi' hii
  rw [hae, hbe] at h
  exact h

/-- In a sorted schedule, at most one cue's window contains a given time:
any cue containing `x` equals the one at index `i` containing `x`. -/
theorem frame_window_unique {cues : List Subtitle}
    (hch : List.Chain' (fun u v => u.end_ ≤ v.start) cues)
    (hse : ∀ c ∈ cues, c.start < c.end_)
    {i : Nat} {c : Subtitle} (hc : cues[i]? = some c) {x : Nat}
    (h1 : c.start ≤ x) (h2 : x < c.end_) :
    ∀ b ∈ cues, b.start ≤ x ∧ x < b.end_ → b = c := by
  intro b hb hbw
  obtain ⟨i', hi', hbe⟩ := List.getElem_of_mem hb
  have hbq : cues[i']? = some b := by
    rw [List.getElem?_eq_some_iff]
    exact ⟨hi', hbe⟩
  rcases Nat.lt_trichotomy i' i with hlt | rfl | hgt
  · have := cuesPast hch hse hlt hbq hc
    omega
  · rw [hbq] at hc
    exact Option.some_injective _ hc
  · have := cuesPast hch hse hgt hc hbq
    omega

/-- In a sorted schedule, if all cues before index `i` have wholly elapsed
and time has not yet reached cue `i`, then no cue's window contains the
current time. -/
theorem no_window {cues : List Subtitle}
    (hch : List.Chain' (fun u v => u.end_ ≤ v.start) cues)
    (hse : ∀ c ∈ cues, c.start < c.end_)
    {i : Nat} {c : Subtitle} (hc : cues[i]? = some c) {x : Nat}
    (hpast : ∀ i' c', i' < i → cues[i']? = some c' → c'.end_ ≤ x)
    (hx : x < c.start) :
    ∀ b ∈ cues, ¬(b.start ≤ x ∧ x < b.end_) := by
  intro b hb hbw
  obtain ⟨i', hi', hbe⟩ := List.getElem_of_mem hb
  have hbq : cues[i']? = some b := by
    rw [List.getElem?_eq_some_iff]
    exact ⟨hi', hbe⟩
  rcases Nat.lt_trichotomy i' i with hlt | rfl | hgt
  · have := hpast i' b hlt hbq
    omega
  · rw [hbq] at hc
    injection hc with hc
    subst hc
    omega
  · have h1 := cuesPast hch hse hgt hc hbq
    have h2 : c.start < c.end_ := by
      obtain ⟨hci, hce⟩ := List.getElem?_eq_some_iff.1 hc
      exact hce ▸ hse _ (List.getElem_mem hci)
    omega

/-- Reading off the line/cue correspondence at position `j` of the input
stream. -/
theorem lines_drop_cons {lines : List (List Char)} {cues : List Subtitle}
    (hpl : List.Forall₂ (fun l c => parse_line l = some c) lines cues)
    {j : Nat} {l : List Char} {lt : List (List Char)}
    (h : lines.drop j = l :: lt) :
    ∃ c, cues[j]? = some c ∧ parse_line l = some c ∧
      lines.drop (j + 1) = lt := by
  have hd : List.Forall₂ (fun l c => parse_line l = some c)
      (lines.drop j) (cues.drop j) := List.forall₂_drop j hpl
  rw [h] at hd
  obtain ⟨c, ct, hrel, htail, hcd⟩ := List.forall₂_cons_left_iff.1 hd
  refine ⟨c, ?_, hrel, ?_⟩
  · have h0 : (cues.drop j)[0]? = some c := by rw [hcd]; simp
    rw [List.getElem?_drop] at h0
    simpa using h0
  · have : lines.drop (j + 1) = (lines.drop j).drop 1 := by
      rw [List.drop_drop, Nat.add_comm]
    rw [this, h]
    rfl

/-- If the clock has not yet reached a lower bound of a cue's start by tick
`t`, and the cue's window contains some tick, then the window is still open
at tick `t + 1`. -/
theorem now_lt_end {fps : Nat} {c : Subtitle} {t L : Nat}
    (hinh : ∃ f, c.start ≤ now64 fps f ∧ now64 fps f < c.end_)
    (hL : L ≤ c.start) (hprev : now64 fps t < L) :
    now64 fps (t + 1) < c.end_ := by
  obtain ⟨f, hf1, hf2⟩ := hinh
  by_contra h
  push_neg at h
  have hft : t < f := by
    by_contra hle
    push_neg at hle
    have := now64_mono fps hle
    omega
  have := now64_mono fps (show t + 1 ≤ f by omega)
  omega

/-- Appending a correct frame preserves the display property. -/
theorem OutProp_snoc {fps : Nat} {B : Backend} {cues : List Subtitle}
    {out : List (List Nat)} {fr : List Nat}
    (h : OutProp fps B cues out)
    (h1 : ∀ c ∈ cues, c.start ≤ now64 fps out.length ∧
        now64 fps out.length < c.end_ →
      fr = B.render (SurfState.drawn (c.start, c.end_) c.lines))
    (h2 : (∀ c ∈ cues,
        ¬(c.start ≤ now64 fps out.length ∧ now64 fps out.length < c.end_)) →
      fr = B.render SurfState.cleared) :
    OutProp fps B cues (out ++ [fr]) := by
  intro k hk
  by_cases hk' : k < out.length
  · have hind := h k hk'
    have hgl : (out ++ [fr])[k] = out[k] := List.getElem_append_left hk'
    exact ⟨fun c hc hw => by rw [hgl]; exact hind.1 c hc hw,
           fun hnone => by rw [hgl]; exact hind.2 hnone⟩
  · have hk0 : k = out.length := by
      rw [List.length_append, List.length_singleton] at hk
      omega
    subst hk0
    have hgl : (out ++ [fr])[out.length] = fr :=
      List.getElem_concat_length out fr out.length rfl (by simp)
    exact ⟨fun c hc hw => by rw [hgl]; exact h1 c hc hw,
           fun hnone => by rw [hgl]; exact h2 hnone⟩

/-- Evaluating the tail of a tick from a known rendering outcome, when the
write succeeds. -/
theorem emitStep_eval {fps : Nat} {B : Backend} {wfail : Nat → Bool}
    {s3 s4 : MachineState} {b : Bool}
    (hr : renderPhase (now64 fps s3.frame_count) s3 = (s4, b))
    (hw : wfail s4.frame_count = false) :
    emitStep fps B wfail s3 = StepRes.next
      (if b then
        { s4 with
            pixel_buffer := B.render s4.surface,
            output := s4.output ++ [B.render s4.surface],
            frame_count := s4.frame_count + 1 }
       else
        { s4 with
            output := s4.output ++ [s4.pixel_buffer],
            frame_count := s4.frame_count + 1 }) := by
  unfold emitStep
  rw [hr]
  cases b
  · simp [hw]
  · simp [hw]

/-- A cue located by index is a member of the schedule. -/
theorem mem_of_cueIdx {cues : List Subtitle} {i : Nat} {c : Subtitle}
    (hc : cues[i]? = some c) : c ∈ cues := by
  obtain ⟨h1, h2⟩ := List.getElem?_eq_some_iff.1 hc
  exact h2 ▸ List.getElem_mem h1

/-- Tail of a tick when the rendering phase refreshed the surface. -/
theorem emitStep_eval_read {fps : Nat} {B : Backend} {wfail : Nat → Bool}
    {s3 s4 : MachineState}
    (hr : renderPhase (now64 fps s3.frame_count) s3 = (s4, true))
    (hw : wfail s4.frame_count = false) :
    emitStep fps B wfail s3 = StepRes.next
      { s4 with
          pixel_buffer := B.render s4.surface,
          output := s4.output ++ [B.render s4.surface],
          frame_count := s4.frame_count + 1 } := by
  rw [emitStep_eval hr hw]
  simp only [eq_self_iff_true, if_true]

/-- Tail of a tick when the rendering phase did nothing. -/
theorem emitStep_eval_skip {fps : Nat} {B : Backend} {wfail : Nat → Bool}
    {s3 s4 : MachineState}
    (hr : renderPhase (now64 fps s3.frame_count) s3 = (s4, false))
    (hw : wfail s4.frame_count = false) :
    emitStep fps B wfail s3 = StepRes.next
      { s4 with
          output := s4.output ++ [s4.pixel_buffer],
          frame_count := s4.frame_count + 1 } := by
  rw [emitStep_eval hr hw]
  simp only [Bool.false_eq_true, if_false]

/-- Field-level description of a continuing tick that redraws the active
cue (cache miss). -/
theorem emit_draw_fields {fps : Nat} {B : Backend} {wfail : Nat → Bool}
    {s3 s' : MachineState} {c : Subtitle}
    (hA : s3.active_sub = some c)
    (hk : s3.last_rendered_key ≠ some (c.start, c.end_))
    (hem : emitStep fps B wfail s3 = StepRes.next s') :
    s'.frame_count = s3.frame_count + 1 ∧
    s'.output = s3.output ++
      [B.render (SurfState.drawn (c.start, c.end_) c.lines)] ∧
    s'.active_sub = some c ∧ s'.queued_sub = s3.queued_sub ∧
    s'.input = s3.input ∧
    s'.last_rendered_key = some (c.start, c.end_) ∧
    s'.is_cleared = false ∧
    s'.surface = SurfState.drawn (c.start, c.end_) c.lines ∧
    s'.pixel_buffer = B.render (SurfState.drawn (c.start, c.end_) c.lines) := by
  by_cases hwb : wfail s3.frame_count = true
  · obtain ⟨sx, hx⟩ := (emitStep_wfail fps B wfail s3).1 hwb
    rw [hx] at hem
    cases hem
  · have hwb' : wfail s3.frame_count = false := by
      cases h : wfail s3.frame_count
      · rfl
      · exact absurd h hwb
    have hr : renderPhase (now64 fps s3.frame_count) s3 =
        ({ s3 with
            surface := SurfState.drawn (c.start, c.end_) c.lines,
            drawLog := s3.drawLog ++ [((c.start, c.end_), s3.frame_count)],
            last_rendered_key := some (c.start, c.end_),
            is_cleared := false }, true) := by
      simp [renderPhase, hA, hk]
    rw [emitStep_eval_read hr (by exact hwb')] at hem
    injection hem with hem
    subst hem
    exact ⟨rfl, rfl, hA, rfl, rfl, rfl, rfl, rfl, rfl⟩

/-- Field-level description of a continuing tick that clears the surface
(no active cue, not yet cleared). -/
theorem emit_clear_fields {fps : Nat} {B : Backend} {wfail : Nat → Bool}
    {s3 s' : MachineState}
    (hA : s3.active_sub = none) (hic : s3.is_cleared = false)
    (hem : emitStep fps B wfail s3 = StepRes.next s') :
    s'.frame_count = s3.frame_count + 1 ∧
    s'.output = s3.output ++ [B.render SurfState.cleared] ∧
    s'.active_sub = none ∧ s'.queued_sub = s3.queued_sub ∧
    s'.input = s3.input ∧
    s'.last_rendered_key = none ∧
    s'.is_cleared = true ∧
    s'.surface = SurfState.cleared ∧
    s'.pixel_buffer = B.render SurfState.cleared := by
  by_cases hwb : wfail s3.frame_count = true
  · obtain ⟨sx, hx⟩ := (emitStep_wfail fps B wfail s3).1 hwb
    rw [hx] at hem
    cases hem
  · have hwb' : wfail s3.frame_count = false := by
      cases h : wfail s3.frame_count
      · rfl
      · exact absurd h hwb
    have hr : renderPhase (now64 fps s3.frame_count) s3 =
        ({ s3 with
            surface := SurfState.cleared,
            last_rendered_key := none,
            is_cleared := true }, true) := by
      simp [renderPhase, hA, hic]
    rw [emitStep_eval_read hr (by exact hwb')] at hem
    injection hem with hem
    subst hem
    exact ⟨rfl, rfl, hA, rfl, rfl, rfl, rfl, rfl, rfl⟩

/-- Field-level description of a continuing no-op tick (the rendering
phase returned the state unchanged). -/
theorem emit_noop_fields {fps : Nat} {B : Backend} {wfail : Nat → Bool}
    {s3 s' : MachineState}
    (hr : renderPhase (now64 fps s3.frame_count) s3 = (s3, false))
    (hem : emitStep fps B wfail s3 = StepRes.next s') :
    s'.frame_count = s3.frame_count + 1 ∧
    s'.output = s3.output ++ [s3.pixel_buffer] ∧
    s'.active_sub = s3.active_sub ∧ s'.queued_sub = s3.queued_sub ∧
    s'.input = s3.input ∧ s'.last_rendered_key = s3.last_rendered_key ∧
    s'.is_cleared = s3.is_cleared ∧ s'.surface = s3.surface ∧
    s'.pixel_buffer = s3.pixel_buffer := by
  by_cases hwb : wfail s3.frame_count = true
  · obtain ⟨sx, hx⟩ := (emitStep_wfail fps B wfail s3).1 hwb
    rw [hx] at hem
    cases hem
  · have hwb' : wfail s3.frame_count = false := by
      cases h : wfail s3.frame_count
      · rfl
      · exact absurd h hwb
    rw [emitStep_eval_skip hr (by exact hwb')] at hem
    injection hem with hem
    subst hem
    exact ⟨rfl, rfl, rfl, rfl, rfl, rfl, rfl, rfl, rfl⟩

/-- One continuing tick preserves the correspondence invariant for a
sorted schedule of parseable cues whose windows each contain a tick. -/
theorem CInv_step {fps : Nat} {B : Backend} {wfail : Nat → Bool}
    {cues : List Subtitle} {lines : List (List Char)} {s s' : MachineState}
    (hch : List.Chain' (fun u v => u.end_ ≤ v.start) cues)
    (hinh : ∀ c ∈ cues, ∃ f, c.start ≤ now64 fps f ∧ now64 fps f < c.end_)
    (hpl : List.Forall₂ (fun l c => parse_line l = some c) lines cues)
    (hinv : CInv fps B cues lines s)
    (hstep : step fps B wfail s = StepRes.next s') :
    CInv fps B cues lines s' := by
  have hse : ∀ c ∈ cues, c.start < c.end_ := by
    intro c hc
    obtain ⟨f, h1, h2⟩ := hinh c hc
    omega
  obtain ⟨hOut, hCnt, hcase⟩ := hinv
  rw [step_decompose] at hstep
  rcases hig : ingestPhase (now64 fps s.frame_count)
      (promotePhase (now64 fps s.frame_count)
        (expirePhase (now64 fps s.frame_count) s)) with s3 | ⟨sh, r⟩
  swap
  · rw [hig] at hstep
    exact StepRes.noConfusion
      (show StepRes.halted sh r = StepRes.next s' from hstep)
  rw [hig] at hstep
  have hem : emitStep fps B wfail s3 = StepRes.next s' := hstep
  rcases hcase with ⟨hfc0, hA0, hQ0, hic, hlrk, hinp⟩ | hA | hQ
  · -- before the first tick
    have hsched : promotePhase (now64 fps s.frame_count)
        (expirePhase (now64 fps s.frame_count) s) = s := by
      simp [expirePhase, promotePhase, hA0, hQ0]
    rw [hsched] at hig
    have hnow0 : now64 fps s.frame_count = 0 := by
      rw [hfc0]
      exact now64_zero fps
    cases hpl with
    | nil =>
      have hin2 : ingestPhase (now64 fps s.frame_count) s =
          Sum.inr (s, ExitReason.eof) := by
        simp [ingestPhase, hA0, hQ0, hinp]
      rw [hin2] at hig
      cases hig
    | @cons l0 c0 ltail ctail hrel htail =>
      have hinps : s.input = Except.ok l0 :: List.map Except.ok ltail := by
        rw [hinp]
        rfl
      have hse0 : c0.start < c0.end_ := hse c0 (List.mem_cons_self c0 ctail)
      have hci0 : (c0 :: ctail)[0]? = some c0 := by simp
      by_cases hop : c0.start = 0
      · -- cue 0 already open at tick 0: read and promote
        have hcond : c0.start ≤ now64 fps s.frame_count ∧
            now64 fps s.frame_count < c0.end_ := by
          rw [hnow0]
          omega
        have hin2 : ingestPhase (now64 fps s.frame_count) s = Sum.inl
            { s with
                active_sub := some c0,
                queued_sub := none,
                input := List.map Except.ok ltail } := by
          simp [ingestPhase, hA0, hQ0, hinps, hrel, hcond]
        rw [hin2] at hig
        injection hig with hig
        subst hig
        have hkne : s.last_rendered_key ≠ some (c0.start, c0.end_) := by
          rw [hlrk]
          simp
        obtain ⟨hfc', hout, hAs', hQs', hinp', hlk', hic', hsurf', hpix'⟩ :=
          emit_draw_fields rfl (by exact hkne) hem
        have hout2 : s'.output = s.output ++
            [B.render (SurfState.drawn (c0.start, c0.end_) c0.lines)] := hout
        have hfc2 : s'.frame_count = s.frame_count + 1 := hfc'
        have hinp2 : s'.input = List.map Except.ok ltail := hinp'
        have hQs2 : s'.queued_sub = none := hQs'
        refine ⟨?_, ?_, Or.inr (Or.inl
          ⟨0, c0, 0, hci0, ?_, ?_, hAs', hQs2, ?_, ?_, hlk', hic', hsurf', hpix'⟩)⟩
        · rw [hout2]
          refine OutProp_snoc hOut ?_ ?_
          · rw [hCnt]
            intro b hb hw
            have hbc := frame_window_unique hch hse hci0 hcond.1 hcond.2 b hb hw
            subst hbc
            rfl
          · rw [hCnt]
            intro hnone
            exact absurd hcond (hnone c0 (mem_of_cueIdx hci0))
        · rw [hout2, hfc2, List.length_append, List.length_singleton, hCnt]
        · rw [hfc2, hfc0]
        · rw [hinp2]
          rfl
        · rw [now64_zero]
          omega
        · rw [now64_zero]
          omega
      · -- cue 0 not yet open at tick 0: read and queue
        have hncond : ¬(c0.start ≤ now64 fps s.frame_count ∧
            now64 fps s.frame_count < c0.end_) := by
          rw [hnow0]
          omega
        have hin2 : ingestPhase (now64 fps s.frame_count) s = Sum.inl
            { s with
                queued_sub := some c0,
                input := List.map Except.ok ltail } := by
          simp [ingestPhase, hA0, hQ0, hinps, hrel, hncond]
        rw [hin2] at hig
        injection hig with hig
        subst hig
        obtain ⟨hfc', hout, hAs', hQs', hinp', hlk', hic', hsurf', hpix'⟩ :=
          emit_clear_fields (by exact hA0) (by exact hic) hem
        have hout2 : s'.output = s.output ++ [B.render SurfState.cleared] := hout
        have hfc2 : s'.frame_count = s.frame_count + 1 := hfc'
        have hinp2 : s'.input = List.map Except.ok ltail := hinp'
        have hQs2 : s'.queued_sub = some c0 := hQs'
        have hx0 : now64 fps 0 < c0.start := by
          rw [now64_zero]
          omega
        have hpast0 : ∀ i' c', i' < 0 → (c0 :: ctail)[i']? = some c' →
            c'.end_ ≤ now64 fps 0 := by
          intro i' c' hi' _
          exact absurd hi' (Nat.not_lt_zero i')
        have hx0' : now64 fps s.frame_count < c0.start := by
          rw [hnow0]
          omega
        have hpast0' : ∀ i' c', i' < 0 → (c0 :: ctail)[i']? = some c' →
            c'.end_ ≤ now64 fps s.frame_count := by
          intro i' c' hi' _
          exact absurd hi' (Nat.not_lt_zero i')
        refine ⟨?_, ?_, Or.inr (Or.inr
          ⟨0, c0, 0, hci0, ?_, ?_, hAs', hQs2, hx0, hpast0, hlk', hic', hsurf',
            hpix'⟩)⟩
        · rw [hout2]
          refine OutProp_snoc hOut ?_ ?_
          · rw [hCnt]
            intro b hb hw
            exact absurd hw (no_window hch hse hci0 hpast0' hx0' b hb)
          · intro _
            rfl
        · rw [hout2, hfc2, List.length_append, List.length_singleton, hCnt]
        · rw [hfc2, hfc0]
        · rw [hinp2]
          rfl
  · -- cue i active
    obtain ⟨i, c, t, hci, hfc, hinp, hAs, hQs, hst, hen, hlk, hicf, hsurf,
      hpix⟩ := hA
    rw [hfc] at hig
    by_cases hne : now64 fps (t + 1) < c.end_
    · -- cue still open: no-op tick
      have hstart' : c.start ≤ now64 fps (t + 1) :=
        le_trans hst (now64_mono fps (show t ≤ t + 1 by omega))
      have hsched : promotePhase (now64 fps (t + 1))
          (expirePhase (now64 fps (t + 1)) s) = s := by
        have h1 : expirePhase (now64 fps (t + 1)) s = s := by
          simp [expirePhase, hAs, Nat.not_le.2 hne]
        rw [h1]
        simp [promotePhase, hAs]
      rw [hsched] at hig
      have hin2 : ingestPhase (now64 fps (t + 1)) s = Sum.inl s := by
        simp [ingestPhase, hAs, hQs]
      rw [hin2] at hig
      injection hig with hig
      subst hig
      have hr : renderPhase (now64 fps s.frame_count) s = (s, false) := by
        rw [hfc]
        simp [renderPhase, hAs, hlk, Nat.not_lt.2 hstart']
      obtain ⟨hfc', hout, hAs', hQs', hinp', hlk', hic', hsurf', hpix'⟩ :=
        emit_noop_fields hr hem
      refine ⟨?_, ?_, Or.inr (Or.inl
        ⟨i, c, t + 1, hci, ?_, ?_, ?_, ?_, hstart', hne, ?_, ?_, ?_, ?_⟩)⟩
      · rw [hout, hpix]
        refine OutProp_snoc hOut ?_ ?_
        · rw [hCnt, hfc]
          intro b hb hw
          have hbc := frame_window_unique hch hse hci hstart' hne b hb hw
          subst hbc
          rfl
        · rw [hCnt, hfc]
          intro hnone
          exact absurd ⟨hstart', hne⟩ (hnone c (mem_of_cueIdx hci))
      · rw [hout, hfc', List.length_append, List.length_singleton, hCnt]
      · rw [hfc', hfc]
      · rw [hinp', hinp]
      · rw [hAs', hAs]
      · rw [hQs', hQs]
      · rw [hlk', hlk]
      · rw [hic', hicf]
      · rw [hsurf', hsurf]
      · rw [hpix', hpix]
    · -- cue expired this tick
      have he : c.end_ ≤ now64 fps (t + 1) := Nat.not_lt.1 hne
      have hsched : promotePhase (now64 fps (t + 1))
          (expirePhase (now64 fps (t + 1)) s) =
          { s with active_sub := none } := by
        have h1 : expirePhase (now64 fps (t + 1)) s =
            { s with active_sub := none } := by
          simp [expirePhase, hAs, he]
        rw [h1]
        simp [promotePhase, hQs]
      rw [hsched] at hig
      rcases hdrop : lines.drop (i + 1) with _ | ⟨l, lt⟩
      · -- input exhausted: the tick would halt
        have hin2 : ingestPhase (now64 fps (t + 1))
            { s with active_sub := none } =
            Sum.inr ({ s with active_sub := none }, ExitReason.eof) := by
          simp [ingestPhase, hQs, hinp, hdrop]
        rw [hin2] at hig
        cases hig
      · obtain ⟨c', hci', hpl', hdrop'⟩ := lines_drop_cons hpl hdrop
        have hgap : c.end_ ≤ c'.start :=
          cuesPast hch hse (Nat.lt_succ_self i) hci hci'
        have hnext_end : now64 fps (t + 1) < c'.end_ :=
          now_lt_end (hinh c' (mem_of_cueIdx hci')) hgap hen
        have hinps : s.input = Except.ok l :: List.map Except.ok lt := by
          rw [hinp, hdrop]
          rfl
        by_cases hopn : c'.start ≤ now64 fps (t + 1)
        · -- next cue read and immediately promoted
          have hin2 : ingestPhase (now64 fps (t + 1))
              { s with active_sub := none } = Sum.inl
              { s with
                  active_sub := some c',
                  queued_sub := none,
                  input := List.map Except.ok lt } := by
            simp [ingestPhase, hQs, hinps, hpl', hopn, hnext_end]
          rw [hin2] at hig
          injection hig with hig
          subst hig
          have hkne : s.last_rendered_key ≠ some (c'.start, c'.end_) := by
            rw [hlk]
            have h1 : c.start < c.end_ := hse c (mem_of_cueIdx hci)
            intro hcontra
            injection hcontra with hcontra
            have h2 := congrArg Prod.fst hcontra
            simp at h2
            omega
          obtain ⟨hfc', hout, hAs', hQs', hinp', hlk', hic', hsurf', hpix'⟩ :=
            emit_draw_fields rfl (by exact hkne) hem
          have hout2 : s'.output = s.output ++
              [B.render (SurfState.drawn (c'.start, c'.end_) c'.lines)] := hout
          have hfc2 : s'.frame_count = s.frame_count + 1 := hfc'
          have hinp2 : s'.input = List.map Except.ok lt := hinp'
          have hQs2 : s'.queued_sub = none := hQs'
          refine ⟨?_, ?_, Or.inr (Or.inl
            ⟨i + 1, c', t + 1, hci', ?_, ?_, hAs', hQs2, hopn, hnext_end, hlk',
              hic', hsurf', hpix'⟩)⟩
          · rw [hout2]
            refine OutProp_snoc hOut ?_ ?_
            · rw [hCnt, hfc]
              intro b hb hw
              have hbc := frame_window_unique hch hse hci' hopn hnext_end b hb hw
              subst hbc
              rfl
            · rw [hCnt, hfc]
              intro hnone
              exact absurd ⟨hopn, hnext_end⟩ (hnone c' (mem_of_cueIdx hci'))
          · rw [hout2, hfc2, List.length_append, List.length_singleton, hCnt]
          · rw [hfc2, hfc]
          · rw [hinp2, hdrop']
        · -- next cue read but not yet started: queued
          have hnopn : ¬(c'.start ≤ now64 fps (t + 1) ∧
              now64 fps (t + 1) < c'.end_) := by
            intro hcontra
            exact hopn hcontra.1
          have hin2 : ingestPhase (now64 fps (t + 1))
              { s with active_sub := none } = Sum.inl
              { s with
                  active_sub := none,
                  queued_sub := some c',
                  input := List.map Except.ok lt } := by
            simp [ingestPhase, hQs, hinps, hpl', hnopn]
          rw [hin2] at hig
          injection hig with hig
          subst hig
          obtain ⟨hfc', hout, hAs', hQs', hinp', hlk', hic', hsurf', hpix'⟩ :=
            emit_clear_fields rfl (by exact hicf) hem
          have hout2 : s'.output = s.output ++ [B.render SurfState.cleared] :=
            hout
          have hfc2 : s'.frame_count = s.frame_count + 1 := hfc'
          have hinp2 : s'.input = List.map Except.ok lt := hinp'
          have hQs2 : s'.queued_sub = some c' := hQs'
          have hx' : now64 fps (t + 1) < c'.start := Nat.lt_of_not_le hopn
          have hpast' : ∀ i2 c2, i2 < i + 1 → cues[i2]? = some c2 →
              c2.end_ ≤ now64 fps (t + 1) := by
            intro i2 c2 hi2 hci2
            rcases Nat.lt_succ_iff_lt_or_eq.1 hi2 with hlt2 | rfl
            · have h1 := cuesPast hch hse hlt2 hci2 hci
              have h2 := now64_mono fps (show t ≤ t + 1 by omega)
              omega
            · rw [hci] at hci2
              injection hci2 with hci2
              rw [← hci2]
              exact he
          refine ⟨?_, ?_, Or.inr (Or.inr
            ⟨i + 1, c', t + 1, hci', ?_, ?_, hAs', hQs2, hx', hpast', hlk',
              hic', hsurf', hpix'⟩)⟩
          · rw [hout2]
            refine OutProp_snoc hOut ?_ ?_
            · rw [hCnt, hfc]
              intro b hb hw
              exact absurd hw (no_window hch hse hci' hpast' hx' b hb)
            · intro _
              rfl
          · rw [hout2, hfc2, List.length_append, List.length_singleton, hCnt]
          · rw [hfc2, hfc]
          · rw [hinp2, hdrop']
  · -- cue i queued
    obtain ⟨i, c, t, hci, hfc, hinp, hAs, hQs, hx, hpast, hlk, hicf, hsurf,
      hpix⟩ := hQ
    rw [hfc] at hig
    have hnend : now64 fps (t + 1) < c.end_ :=
      now_lt_end (hinh c (mem_of_cueIdx hci)) (le_refl c.start) hx
    by_cases hopn : c.start ≤ now64 fps (t + 1)
    · -- promoted this tick
      have hsched : promotePhase (now64 fps (t + 1))
          (expirePhase (now64 fps (t + 1)) s) =
          { s with active_sub := some c, queued_sub := none } := by
        have h1 : expirePhase (now64 fps (t + 1)) s = s := by
          simp [expirePhase, hAs]
        rw [h1]
        simp [promotePhase, hAs, hQs, hnend, hopn]
      rw [hsched] at hig
      have hin2 : ingestPhase (now64 fps (t + 1))
          { s with active_sub := some c, queued_sub := none } = Sum.inl
          { s with active_sub := some c, queued_sub := none } := by
        simp [ingestPhase]
      rw [hin2] at hig
      injection hig with hig
      subst hig
      have hkne : s.last_rendered_key ≠ some (c.start, c.end_) := by
        rw [hlk]
        simp
      obtain ⟨hfc', hout, hAs', hQs', hinp', hlk', hic', hsurf', hpix'⟩ :=
        emit_draw_fields rfl (by exact hkne) hem
      have hout2 : s'.output = s.output ++
          [B.render (SurfState.drawn (c.start, c.end_) c.lines)] := hout
      have hfc2 : s'.frame_count = s.frame_count + 1 := hfc'
      have hinp2 : s'.input = (lines.drop (i + 1)).map Except.ok := by
        rw [show s'.input = s.input from hinp', hinp]
      have hQs2 : s'.queued_sub = none := hQs'
      refine ⟨?_, ?_, Or.inr (Or.inl
        ⟨i, c, t + 1, hci, ?_, hinp2, hAs', hQs2, hopn, hnend, hlk', hic',
          hsurf', hpix'⟩)⟩
      · rw [hout2]
        refine OutProp_snoc hOut ?_ ?_
        · rw [hCnt, hfc]
          intro b hb hw
          have hbc := frame_window_unique hch hse hci hopn hnend b hb hw
          subst hbc
          rfl
        · rw [hCnt, hfc]
          intro hnone
          exact absurd ⟨hopn, hnend⟩ (hnone c (mem_of_cueIdx hci))
      · rw [hout2, hfc2, List.length_append, List.length_singleton, hCnt]
      · rw [hfc2, hfc]
    · -- still waiting: no-op tick
      have hexcl : ¬(s.active_sub.isSome ∧ s.queued_sub.isSome) := by
        simp [hAs]
      rcases @sched_cases (now64 fps (t + 1)) s hexcl with
        ⟨c2, hA2, _, _⟩ | ⟨c2, hA2, _, _, _⟩ | ⟨_, hQ2, _⟩ |
        ⟨c2, _, hQ2, hend2, _⟩ | ⟨c2, _, hQ2, hst2, _, _⟩ |
        ⟨c2, _, hQ2, _, _, hsched⟩
      · rw [hAs] at hA2
        cases hA2
      · rw [hAs] at hA2
        cases hA2
      · rw [hQs] at hQ2
        cases hQ2
      · rw [hQs] at hQ2
        injection hQ2 with hQ2
        rw [← hQ2] at hend2
        exact absurd hend2 (Nat.not_le.2 hnend)
      · rw [hQs] at hQ2
        injection hQ2 with hQ2
        rw [← hQ2] at hst2
        exact absurd hst2 hopn
      · rw [hsched] at hig
        have hin2 : ingestPhase (now64 fps (t + 1)) s = Sum.inl s := by
          simp [ingestPhase, hAs, hQs, hopn]
        rw [hin2] at hig
        injection hig with hig
        subst hig
        have hr : renderPhase (now64 fps s.frame_count) s = (s, false) := by
          rw [hfc]
          simp [renderPhase, hAs, hicf]
        obtain ⟨hfc', hout, hAs', hQs', hinp', hlk', hic', hsurf', hpix'⟩ :=
          emit_noop_fields hr hem
        have hx' : now64 fps (t + 1) < c.start := Nat.lt_of_not_le hopn
        have hpast' : ∀ i2 c2, i2 < i → cues[i2]? = some c2 →
            c2.end_ ≤ now64 fps (t + 1) := by
          intro i2 c2 hi2 hci2
          have h1 := hpast i2 c2 hi2 hci2
          have h2 := now64_mono fps (show t ≤ t + 1 by omega)
          omega
        refine ⟨?_, ?_, Or.inr (Or.inr
          ⟨i, c, t + 1, hci, ?_, ?_, ?_, ?_, hx', hpast', ?_, ?_, ?_, ?_⟩)⟩
        · rw [hout, hpix]
          refine OutProp_snoc hOut ?_ ?_
          · rw [hCnt, hfc]
            intro b hb hw
            exact absurd hw (no_window hch hse hci hpast' hx' b hb)
          · intro _
            rfl
        · rw [hout, hfc', List.length_append, List.length_singleton, hCnt]
        · rw [hfc', hfc]
        · rw [hinp', hinp]
        · rw [hAs', hAs]
        · rw [hQs', hQs]
        · rw [hlk', hlk]
        · rw [hic', hicf]
        · rw [hsurf', hsurf]
        · rw [hpix', hpix]

/-- Running finitely many continuing ticks from a reachable state reaches
the result. -/
theorem Reach_runN {cfg : Config} {B : Backend} {wfail : Nat → Bool}
    {input : List (Except Unit (List Char))} {s s' : MachineState} {n : Nat}
    (h : Reach cfg B wfail input s)
    (hr : runN cfg.fps B wfail n s = StepRes.next s') :
    Reach cfg B wfail input s' := by
  induction n generalizing s with
  | zero =>
    injection hr with hr
    rw [← hr]
    exact h
  | succ n ih =>
    rw [runN] at hr
    rcases hstep : step cfg.fps B wfail s with s2 | ⟨sh, r⟩
    · rw [hstep] at hr
      exact ih (Reach.next h hstep) hr
    · rw [hstep] at hr
      cases hr

/-- C1 counterexample: in the two-overlapping-cue run on `cfg1` the second
cue `[1000, 3000)` is ingested (it is even drawn at tick 2), tick 1 has
virtual time inside its window, yet frame 1 shows the first cue's pixels,
not the second cue's. -/
theorem claim_C1_counterexample :
    ((1000, 3000), 2) ∈
      resDrawLog (runN cfg1.fps B1 (fun _ => false) 3
        (initState cfg1 inpOverlap)) ∧
    1000 ≤ now64 cfg1.fps 1 ∧ now64 cfg1.fps 1 < 3000 ∧
    (resOutput (runN cfg1.fps B1 (fun _ => false) 3
      (initState cfg1 inpOverlap))).length = 3 ∧
    (resOutput (runN cfg1.fps B1 (fun _ => false) 3
      (initState cfg1 inpOverlap)))[1]! ≠
      B1.render (SurfState.drawn (1000, 3000) [['B']]) := by
  decide

/-- C1 (amended): for a schedule of cues that all parse, are sorted with
non-overlapping half-open windows, and whose every window contains the
virtual time of at least one tick, every reachable loop state's output is
frame-exact — each emitted frame whose tick falls inside an (eventually
ingested) cue's window holds exactly that cue's rendered readback, and
each frame whose tick falls in no cue's window holds the transparent
readback.  (Without these hypotheses the claim fails, see the
counterexample: an overlapping cue ingested late is not shown during the
early part of its window.) -/
theorem claim_C1 {cfg : Config} {B : Backend} {wfail : Nat → Bool}
    {cues : List Subtitle} {lines : List (List Char)} {s : MachineState}
    (hch : List.Chain' (fun u v => u.end_ ≤ v.start) cues)
    (hinh : ∀ c ∈ cues, ∃ f, c.start ≤ now64 cfg.fps f ∧
      now64 cfg.fps f < c.end_)
    (hpl : List.Forall₂ (fun l c => parse_line l = some c) lines cues)
    (hreach : Reach cfg B wfail (lines.map Except.ok) s) :
    OutProp cfg.fps B cues s.output := by
  suffices h : CInv cfg.fps B cues lines s from h.1
  induction hreach with
  | init =>
    refine ⟨?_, rfl, Or.inl ⟨rfl, rfl, rfl, rfl, rfl, rfl⟩⟩
    intro k hk
    exact absurd hk (by simp [initState])
  | next hr hstep ih => exact CInv_step hch hinh hpl ih hstep

/-- C1 witness: the single-cue run on `cfg1` satisfies the hypotheses, and
after two ticks its frame 1 (virtual time 1000, inside the window) indeed
holds the drawn cue's readback. -/
theorem claim_C1_witness :
    Reach cfg1 B1 (fun _ => false)
      (List.map Except.ok ["1000\t3000\tHELLO".toList]) stW2 ∧
    stW2.output.length = 2 ∧
    stW2.output[1]! =
      B1.render (SurfState.drawn (1000, 3000) ["HELLO".toList]) := by
  have h1 : step cfg1.fps B1 (fun _ => false)
      (initState cfg1 (List.map Except.ok ["1000\t3000\tHELLO".toList])) =
      StepRes.next stW1 := by rfl
  have h2 : step cfg1.fps B1 (fun _ => false) stW1 = StepRes.next stW2 := by
    rfl
  have hreach : Reach cfg1 B1 (fun _ => false)
      (List.map Except.ok ["1000\t3000\tHELLO".toList]) stW2 :=
    Reach.next (Reach.next Reach.init h1) h2
  have hout := @claim_C1 cfg1 B1 (fun _ => false)
    [Subtitle.mk 1000 3000 ["HELLO".toList]] ["1000\t3000\tHELLO".toList]
    stW2
    (by simp)
    (by
      intro c hc
      rw [List.mem_singleton] at hc
      subst hc
      exact ⟨1, by decide, by decide⟩)
    (List.Forall₂.cons (by decide) List.Forall₂.nil)
    hreach
  have hfr := (hout 1 (by decide)).1 (Subtitle.mk 1000 3000 ["HELLO".toList])
    (List.mem_singleton.2 rfl) ⟨by decide, by decide⟩
  exact ⟨hreach, rfl, by simpa using hfr⟩

end Subcast
